/-
Verification of the whatshap phasing pipeline (scripts/whatshap.py and
cli/extend.py) against its natural-language specification.

Shallow embedding conventions:
* Python strings are `List Char`; `s[i:i+1]` is `(s.drop i).take 1`.
* A missing base-quality string (`read.qual is None`) is `Option` `none`.
* Functions that can raise (KeyError, ValueError, AssertionError,
  ZeroDivisionError, unsupported CIGAR `sys.exit`) or diverge return
  `Option`; `none` means the Python program does not return normally.
* Machine integers are `Nat`/`Int` (Python integers are unbounded, so no
  wrap-around modelling is needed).
-/
import Mathlib

set_option maxHeartbeats 1000000

/-! ## Data model

`ReadVariant` is one allele observation of a read at a variant site
(scripts/whatshap.py, `ReadVariant(position=…, base=…, allele=…, quality=…)`).
`base` is a Python string slice (usually one character), `allele` is one of
the characters 0 / 1 / E, `quality` is the Phred value `ord(qual[s]) - 33`. -/
structure ReadVariant where
  position : Nat
  base : List Char
  allele : Char
  quality : Int
deriving DecidableEq, Repr

/-- Mapping quality of a fragment: a plain value for a single read, a pair
for a merged mate pair (`merge_paired_reads` builds the tuple). -/
inductive MapQ where
  | single (q : Nat)
  | pair (q1 q2 : MapQ)
deriving DecidableEq, Repr

/-- `ReadVariantList`: a named fragment with its observations; `none` entries
are the sentinel gap written between the two mates of a merged pair. -/
structure ReadVariantList where
  name : String
  mapq : MapQ
  variants : List (Option ReadVariant)
deriving DecidableEq, Repr

/-- A VCF variant site (the fields of `parse_vcf` used by the pipeline). -/
structure Variant where
  position : Nat
  reference_allele : List Char
  alternative_allele : List Char
deriving DecidableEq, Repr

/-! ## Fragment filter (`filter_reads`, scripts/whatshap.py lines 223-252) -/

/-- The characters of the Python string literal `ACGT01-X` used by the
assert in `filter_reads`. -/
def validBaseChars : List Char := ['A', 'C', 'G', 'T', '0', '1', '-', 'X']

/-- Python substring test `needle in hay` for strings
(`variant.base in 'ACGT01-X'`). -/
def isSubstrOf (needle hay : List Char) : Bool :=
  (List.range (hay.length + 1)).any fun i => (hay.drop i).take needle.length == needle

/-- The per-read loop body of `filter_reads`: walk the variants with the
running `prev_pos` (initially `-1`); skip sentinels; `some false` models a
`break` (read rejected), `some true` a completed loop (no break), `none` a
failure of the `assert variant.base in 'ACGT01-X'`. -/
def checkRead : Int → List (Option ReadVariant) → Option Bool
  | _, [] => some true
  | prev, none :: rest => checkRead prev rest
  | prev, some v :: rest =>
    if ¬ prev < (v.position : Int) then some false
    else if v.allele = 'E' then some false
    else if isSubstrOf v.base validBaseChars then checkRead (v.position : Int) rest
    else none

/-- `filter_reads(reads, mincount=2)`: keep the reads whose loop completes
without break and whose `len(read.variants)` (sentinels included!) is at
least `mincount`. `none` models an `AssertionError`. -/
def filter_reads (reads : List ReadVariantList) (mincount : Nat) :
    Option (List ReadVariantList) :=
  match reads with
  | [] => some []
  | r :: rest =>
    match checkRead (-1) r.variants with
    | none => none
    | some ok =>
      match filter_reads rest mincount with
      | none => none
      | some out =>
        if ok ∧ mincount ≤ r.variants.length then some (r :: out) else some out

/-- Non-sentinel observations of a fragment. -/
def nonSentinel (r : ReadVariantList) : List ReadVariant :=
  r.variants.filterMap id

/-- Spec-side predicate: no non-sentinel observation has allele E. -/
def noErrorAllele (r : ReadVariantList) : Prop :=
  ∀ v ∈ nonSentinel r, v.allele ≠ 'E'

/-- Boolean strict-increase test on a list of positions. -/
def strictIncB : List Nat → Bool
  | [] => true
  | [_] => true
  | a :: b :: rest => decide (a < b) && strictIncB (b :: rest)

lemma strictIncB_iff_chainLt : ∀ l : List Nat, strictIncB l = true ↔ List.Chain' (· < ·) l
  | [] => by simp [strictIncB]
  | [a] => by simp [strictIncB]
  | a :: b :: rest => by
    rw [List.chain'_cons, ← strictIncB_iff_chainLt (b :: rest)]
    simp [strictIncB]

/-- Spec-side predicate: positions of non-sentinel observations are strictly
increasing across the entire fragment (both mates combined). -/
def strictIncPositions (r : ReadVariantList) : Prop :=
  List.Chain' (· < ·) ((nonSentinel r).map ReadVariant.position)

instance (r : ReadVariantList) : Decidable (noErrorAllele r) :=
  inferInstanceAs (Decidable (∀ v ∈ nonSentinel r, v.allele ≠ 'E'))

instance (r : ReadVariantList) : Decidable (strictIncPositions r) :=
  decidable_of_iff _ (strictIncB_iff_chainLt ((nonSentinel r).map ReadVariant.position))

/-- The keep-condition that `filter_reads` actually implements: loop
completes (no E allele, strictly increasing positions) and the *raw* length
of the variants list — sentinels included — is at least `mincount`. -/
def codeKeep (mincount : Nat) (r : ReadVariantList) : Prop :=
  noErrorAllele r ∧ strictIncPositions r ∧ mincount ≤ r.variants.length

instance (mincount : Nat) (r : ReadVariantList) : Decidable (codeKeep mincount r) :=
  inferInstanceAs (Decidable (_ ∧ _ ∧ _))

/-- The keep-condition claimed by the spec: same, but counting only
non-sentinel observations. -/
def claimKeep (mincount : Nat) (r : ReadVariantList) : Prop :=
  noErrorAllele r ∧ strictIncPositions r ∧ mincount ≤ (nonSentinel r).length

instance (mincount : Nat) (r : ReadVariantList) : Decidable (claimKeep mincount r) :=
  inferInstanceAs (Decidable (_ ∧ _ ∧ _))

/-- The property that `checkRead` checks, spelled out recursively: each
non-sentinel observation is above the running previous position and is not
an E call. -/
def goodFrom (prev : Int) : List ReadVariant → Prop
  | [] => True
  | v :: rest => prev < (v.position : Int) ∧ v.allele ≠ 'E' ∧ goodFrom (v.position : Int) rest

instance instDecGoodFrom : ∀ (prev : Int) (l : List ReadVariant), Decidable (goodFrom prev l)
  | _, [] => .isTrue trivial
  | _prev, v :: rest =>
    have : Decidable (goodFrom (v.position : Int) rest) := instDecGoodFrom _ rest
    inferInstanceAs (Decidable (_ ∧ _ ∧ _))

lemma checkRead_eq_some_true (vs : List (Option ReadVariant)) :
    ∀ prev : Int, checkRead prev vs ≠ none →
      (checkRead prev vs = some true ↔ goodFrom prev (vs.filterMap id)) := by
  induction vs with
  | nil => intro prev _; simp [checkRead, goodFrom]
  | cons hd tl ih =>
    intro prev hne
    cases hd with
    | none => simpa [checkRead] using ih prev (by simpa [checkRead] using hne)
    | some v =>
      by_cases hpos : prev < (v.position : Int)
      · by_cases hE : v.allele = 'E'
        · simp [checkRead, hpos, hE, goodFrom]
        · have hsub : isSubstrOf v.base validBaseChars = true := by
            by_contra hc
            exact hne (by simp [checkRead, hpos, hE, hc])
          have hne' : checkRead (v.position : Int) tl ≠ none := by
            simpa [checkRead, hpos, hE, hsub] using hne
          have hiff := ih (v.position : Int) hne'
          have hstep : checkRead prev (some v :: tl) = checkRead (v.position : Int) tl := by
            simp [checkRead, hpos, hE, hsub]
          rw [hstep, show (some v :: tl).filterMap id = v :: tl.filterMap id by simp]
          simp only [goodFrom]
          constructor
          · intro h; exact ⟨hpos, hE, hiff.1 h⟩
          · intro ⟨_, _, h⟩; exact hiff.2 h
      · have hstep : checkRead prev (some v :: tl) = some false := by
          simp [checkRead, hpos]
        rw [hstep, show (some v :: tl).filterMap id = v :: tl.filterMap id by simp]
        simp only [goodFrom]
        constructor
        · intro h; simp at h
        · intro ⟨h1, _, _⟩; exact absurd h1 hpos

lemma goodFrom_iff (l : List ReadVariant) : ∀ prev : Int,
    goodFrom prev l ↔
      (∀ v ∈ l, v.allele ≠ 'E') ∧
      List.Chain' (· < ·) (l.map ReadVariant.position) ∧
      (∀ v ∈ l.head?, prev < (v.position : Int)) := by
  induction l with
  | nil => intro prev; simp [goodFrom]
  | cons v rest ih =>
    intro prev
    simp only [goodFrom, ih (v.position : Int)]
    constructor
    · intro ⟨h1, h2, h3, h4, h5⟩
      refine ⟨?_, ?_, ?_⟩
      · intro w hw
        rcases List.mem_cons.1 hw with h | h
        · subst h; exact h2
        · exact h3 w h
      · cases rest with
        | nil => simp
        | cons u us =>
          refine List.chain'_cons.2 ⟨?_, h4⟩
          have := h5 u (by simp)
          exact_mod_cast this
      · intro w hw
        simp at hw; subst hw; exact h1
    · intro ⟨h1, h2, h3⟩
      refine ⟨h3 v (by simp), h1 v (by simp), ?_, ?_, ?_⟩
      · intro w hw; exact h1 w (by simp [hw])
      · cases rest with
        | nil => simp
        | cons u us => exact (List.chain'_cons.1 h2).2
      · intro w hw
        cases rest with
        | nil => simp at hw
        | cons u us =>
          simp at hw; subst hw
          exact_mod_cast (List.chain'_cons.1 h2).1

lemma checkRead_neg_one (r : ReadVariantList) (hne : checkRead (-1) r.variants ≠ none) :
    checkRead (-1) r.variants = some true ↔ (noErrorAllele r ∧ strictIncPositions r) := by
  rw [checkRead_eq_some_true r.variants (-1) hne, goodFrom_iff]
  unfold noErrorAllele strictIncPositions nonSentinel
  constructor
  · intro ⟨h1, h2, _⟩; exact ⟨h1, h2⟩
  · intro ⟨h1, h2⟩
    refine ⟨h1, h2, ?_⟩
    intro v _
    have : (0 : Int) ≤ (v.position : Int) := Int.natCast_nonneg _
    omega

/-- When `filter_reads` does not fail, its output is exactly the input
fragments satisfying `codeKeep` (which counts *sentinels included* in the
`mincount` test), every one of which has strictly increasing non-sentinel
positions and no E allele. -/
theorem filter_reads_exact_characterization
    (reads out : List ReadVariantList) (mincount : Nat)
    (h : filter_reads reads mincount = some out) :
    out = reads.filter (fun r => decide (codeKeep mincount r)) ∧
      ∀ r ∈ out, noErrorAllele r ∧ strictIncPositions r ∧ mincount ≤ r.variants.length := by
  have main : ∀ (reads out : List ReadVariantList),
      filter_reads reads mincount = some out →
      out = reads.filter (fun r => decide (codeKeep mincount r)) := by
    intro reads
    induction reads with
    | nil => intro out h; simp [filter_reads] at h; simp [h]
    | cons r rest ih =>
      intro out h
      unfold filter_reads at h
      cases hc : checkRead (-1) r.variants with
      | none => rw [hc] at h; exact absurd h (by simp)
      | some ok =>
        rw [hc] at h
        cases hrec : filter_reads rest mincount with
        | none => rw [hrec] at h; dsimp only at h; exact absurd h (by simp)
        | some out' =>
          rw [hrec] at h
          dsimp only at h
          have hout' := ih out' hrec
          have hne : checkRead (-1) r.variants ≠ none := by simp [hc]
          have hiff := checkRead_neg_one r hne
          by_cases hkeep : codeKeep mincount r
          · obtain ⟨h1, h2, h3⟩ := hkeep
            have hok : ok = true := by
              simpa [hc] using hiff.2 ⟨h1, h2⟩
            subst hok
            rw [if_pos ⟨rfl, h3⟩] at h
            injection h with h
            subst h
            simp only [List.filter_cons]
            rw [if_pos (by simpa using ⟨h1, h2, h3⟩)]
            rw [hout']
          · have : ¬ (ok = true ∧ mincount ≤ r.variants.length) := by
              intro ⟨hok, hlen⟩
              subst hok
              obtain ⟨h1, h2⟩ := hiff.1 hc
              exact hkeep ⟨h1, h2, hlen⟩
            rw [if_neg this] at h
            injection h with h
            subst h
            simp only [List.filter_cons]
            rw [if_neg (by simpa using hkeep)]
            exact hout'
  have hout := main reads out h
  refine ⟨hout, ?_⟩
  intro r hr
  rw [hout] at hr
  have := List.of_mem_filter hr
  have hk : codeKeep mincount r := by simpa using this
  exact ⟨hk.1, hk.2.1, hk.2.2⟩

/-- A fragment with a single non-sentinel observation followed by a
sentinel: its raw variants list has length 2, so `filter_reads` keeps it
with the default `mincount = 2` although it has only 1 real observation. -/
def sentinelPaddedRead : ReadVariantList :=
  { name := "r1", mapq := .single 50,
    variants := [some ⟨5, ['A'], '0', 10⟩, none] }

/-- Counterexample to the claim that `filter_reads` requires at least
`mincount` *non-sentinel* observations: `sentinelPaddedRead` has only one
non-sentinel observation but is kept (the code tests
`len(read.variants) >= mincount`, counting the sentinel). Under the claim
the output would have been empty. -/
theorem filter_reads_claim_counterexample :
    filter_reads [sentinelPaddedRead] 2 = some [sentinelPaddedRead] ∧
      (nonSentinel sentinelPaddedRead).length = 1 ∧
      ¬ claimKeep 2 sentinelPaddedRead ∧
      [sentinelPaddedRead].filter (fun r => decide (claimKeep 2 r)) = [] := by
  refine ⟨by decide, by decide, by decide, by decide⟩

/-- Witness instantiating `filter_reads_exact_characterization`: a 2-SNP
fragment is kept, a fragment with an E call is dropped. -/
def witKeepRead : ReadVariantList :=
  { name := "w1", mapq := .single 50,
    variants := [some ⟨3, ['A'], '0', 20⟩, some ⟨7, ['C'], '1', 20⟩] }

def witDropRead : ReadVariantList :=
  { name := "w2", mapq := .single 50,
    variants := [some ⟨4, ['G'], 'E', 20⟩, some ⟨9, ['T'], '0', 20⟩] }

theorem filter_reads_exact_characterization_witness :
    filter_reads [witKeepRead, witDropRead] 2 = some [witKeepRead] ∧
      [witKeepRead] =
        [witKeepRead, witDropRead].filter (fun r => decide (codeKeep 2 r)) ∧
      ∀ r ∈ [witKeepRead],
        noErrorAllele r ∧ strictIncPositions r ∧ 2 ≤ r.variants.length := by
  have h : filter_reads [witKeepRead, witDropRead] 2 = some [witKeepRead] := by decide
  have := filter_reads_exact_characterization [witKeepRead, witDropRead] [witKeepRead] 2 h
  exact ⟨h, this.1, this.2⟩

/-! ## Read grouping and mate-pair merging
(`grouped_by_name`, `merge_paired_reads`, scripts/whatshap.py lines 176-220) -/

/-- Loop of `grouped_by_name`: `prev` is the previously seen read, `current`
the group being accumulated. -/
def nameDiffers (prev : Option ReadVariantList) (r : ReadVariantList) : Bool :=
  match prev with
  | some p => r.name != p.name
  | none => false

def gbnGo : Option ReadVariantList → List ReadVariantList → List ReadVariantList →
    List (List ReadVariantList)
  | _, current, [] => [current]
  | prev, current, r :: rest =>
    if nameDiffers prev r then
      current :: gbnGo (some r) [r] rest
    else
      gbnGo (some r) (current ++ [r]) rest

/-- `grouped_by_name(reads)`: split a read list into runs of equal names
(`[['A','A'],['B'],['C','C']]` in the docstring example). -/
def grouped_by_name (reads : List ReadVariantList) : List (List ReadVariantList) :=
  gbnGo none [] reads

/-- The merged fragment built for a group of two mates: observations of mate
A, a sentinel, observations of mate B; mapping quality the pair. -/
def mergedOf (a b : ReadVariantList) : ReadVariantList :=
  { name := a.name, mapq := .pair a.mapq b.mapq,
    variants := a.variants ++ [none] ++ b.variants }

/-- Group loop of `merge_paired_reads`; `none` models the failing
`assert len(group) <= 2` on a group of three or more reads. A group of
size 0 (only possible for empty input) falls into the `else` branch, where
the assert passes and nothing is appended. -/
def mprGo : List (List ReadVariantList) → Option (List ReadVariantList)
  | [] => some []
  | g :: gs =>
    match g with
    | [r] => (mprGo gs).map (r :: ·)
    | [a, b] => (mprGo gs).map (mergedOf a b :: ·)
    | [] => mprGo gs
    | _ => none

/-- `merge_paired_reads(reads)`. -/
def merge_paired_reads (reads : List ReadVariantList) : Option (List ReadVariantList) :=
  mprGo (grouped_by_name reads)

/-- What each group contributes to the output of `merge_paired_reads`. -/
def mergeGroup : List ReadVariantList → Option ReadVariantList
  | [r] => some r
  | [a, b] => some (mergedOf a b)
  | _ => none

lemma mprGo_all_small (gs : List (List ReadVariantList))
    (h : ∀ g ∈ gs, g.length ≤ 2) :
    mprGo gs = some (gs.filterMap mergeGroup) := by
  induction gs with
  | nil => simp [mprGo]
  | cons g rest ih =>
    have hrest := ih fun g hg => h g (by simp [hg])
    have hg := h g (by simp)
    match g with
    | [] => simpa [mprGo, mergeGroup] using hrest
    | [r] => simp [mprGo, mergeGroup, hrest]
    | [a, b] => simp [mprGo, mergeGroup, hrest]
    | a :: b :: c :: l => simp at hg

lemma mprGo_big (gs : List (List ReadVariantList))
    (h : ∃ g ∈ gs, 2 < g.length) :
    mprGo gs = none := by
  induction gs with
  | nil => simp at h
  | cons g rest ih =>
    rcases h with ⟨g', hg', hlen⟩
    rcases List.mem_cons.1 hg' with rfl | hmem
    · match g', hlen with
      | a :: b :: c :: l, _ => simp [mprGo]
    · have := ih ⟨g', hmem, hlen⟩
      match g with
      | [] => simpa [mprGo] using this
      | [r] => simp [mprGo, this]
      | [a, b] => simp [mprGo, this]
      | a :: b :: c :: l => simp [mprGo]

/-- C9: `merge_paired_reads` passes size-1 groups through unchanged, turns a
size-2 group into the single merged fragment (mate A's observations, one
sentinel, mate B's observations, with the pair of mapping qualities), and
fails when some group has more than two reads. -/
theorem merge_paired_reads_semantics (reads : List ReadVariantList) :
    ((∀ g ∈ grouped_by_name reads, g.length ≤ 2) →
      merge_paired_reads reads =
        some ((grouped_by_name reads).filterMap mergeGroup)) ∧
    ((∃ g ∈ grouped_by_name reads, 2 < g.length) →
      merge_paired_reads reads = none) := by
  constructor
  · intro h; exact mprGo_all_small _ h
  · intro h; exact mprGo_big _ h

def witPairA : ReadVariantList :=
  { name := "p", mapq := .single 40, variants := [some ⟨1, ['A'], '0', 9⟩] }

def witPairB : ReadVariantList :=
  { name := "p", mapq := .single 41, variants := [some ⟨6, ['C'], '1', 8⟩] }

def witSolo : ReadVariantList :=
  { name := "s", mapq := .single 42, variants := [some ⟨2, ['G'], '0', 7⟩] }

theorem merge_paired_reads_semantics_witness :
    merge_paired_reads [witPairA, witPairB, witSolo] =
      some ((grouped_by_name [witPairA, witPairB, witSolo]).filterMap mergeGroup) ∧
    merge_paired_reads [witSolo, witSolo, witSolo] = none := by
  constructor
  · exact (merge_paired_reads_semantics [witPairA, witPairB, witSolo]).1 (by decide)
  · exact (merge_paired_reads_semantics [witSolo, witSolo, witSolo]).2
      ⟨[witSolo, witSolo, witSolo], by decide, by decide⟩

/-! ## Allele projector (`find_alleles`, scripts/whatshap.py lines 40-92)

The CIGAR operator codes are pysam's `MIDNSHPX= => 012345678`. -/

/-- The loop `while j < len(variants) and variants[j].position < p: j += 1`
(it appears both in `find_alleles` and, with `p = read.pos`, in
`BamReader.read`). Implemented with explicit fuel so that it computes by
structural recursion; `variants.length + 1 - j` steps always suffice. -/
def skipBeforeFuel (variants : List Variant) (p : Nat) : Nat → Nat → Nat
  | 0, j => j
  | fuel + 1, j =>
    match variants[j]? with
    | none => j
    | some v => if v.position < p then skipBeforeFuel variants p fuel (j + 1) else j

def skipBefore (variants : List Variant) (p : Nat) (j : Nat) : Nat :=
  skipBeforeFuel variants p (variants.length + 1 - j) j

lemma skipBefore_none (variants : List Variant) (p j : Nat)
    (h : variants[j]? = none) : skipBefore variants p j = j := by
  unfold skipBefore
  cases hf : variants.length + 1 - j with
  | zero => simp [skipBeforeFuel]
  | succ fuel => simp [skipBeforeFuel, h]

lemma skipBefore_ge (variants : List Variant) (p j : Nat) (v : Variant)
    (h : variants[j]? = some v) (hge : ¬ v.position < p) :
    skipBefore variants p j = j := by
  have hj : j < variants.length := by
    by_contra hc
    rw [List.getElem?_eq_none (by omega)] at h
    exact absurd h (by simp)
  unfold skipBefore
  cases hf : variants.length + 1 - j with
  | zero => omega
  | succ fuel => simp [skipBeforeFuel, h, hge]

lemma skipBefore_lt (variants : List Variant) (p j : Nat) (v : Variant)
    (h : variants[j]? = some v) (hlt : v.position < p) :
    skipBefore variants p j = skipBefore variants p (j + 1) := by
  have hj : j < variants.length := by
    by_contra hc
    rw [List.getElem?_eq_none (by omega)] at h
    exact absurd h (by simp)
  unfold skipBefore
  cases hf : variants.length + 1 - j with
  | zero => omega
  | succ fuel =>
    have : variants.length + 1 - (j + 1) = fuel := by omega
    rw [this]
    simp [skipBeforeFuel, h, hlt]

/-- The observation emitted at a hit: `base = read.seq[s:s+1]`, allele 0/1/E
by comparison with the two alleles of the variant, quality
`ord(read.qual[s:s+1]) - 33`. `none` models the TypeError raised by
`ord` when the read has no quality string (`read.qual is None`) or when
`s` is past its end (`ord('')`). -/
def observeAt (v : Variant) (p s : Nat) (seq : List Char) (qual : Option (List Char)) :
    Option ReadVariant :=
  let base := (seq.drop s).take 1
  let al : Char :=
    if base = v.reference_allele then '0'
    else if base = v.alternative_allele then '1'
    else 'E'
  match qual with
  | none => none
  | some qs =>
    match (qs.drop s).take 1 with
    | [] => none
    | c :: _ => some ⟨p, base, al, (c.toNat : Int) - 33⟩

/-- The inner loop of the matching-region branch of `find_alleles`
(`while j < len(variants) and p < r`), with fuel `r - p`: on a position hit
emit an observation and advance `j`; always advance `s` and `p` together. -/
def matchLoop (variants : List Variant) (seq : List Char) (qual : Option (List Char)) :
    Nat → Nat → Nat → Nat → List ReadVariant → Option (Nat × List ReadVariant)
  | 0, j, _, _, acc => some (j, acc)
  | fuel + 1, j, p, s, acc =>
    match variants[j]? with
    | none => some (j, acc)
    | some v =>
      if v.position = p then
        match observeAt v p s seq qual with
        | none => none
        | some rv => matchLoop variants seq qual fuel (j + 1) (p + 1) (s + 1) (acc ++ [rv])
      else matchLoop variants seq qual fuel j (p + 1) (s + 1) acc

/-- The CIGAR fold of `find_alleles`: reference cursor `p`, read cursor `s`,
variant index `j`. `none` models `sys.exit(1)` on an unsupported operator. -/
def faGo (variants : List Variant) (seq : List Char) (qual : Option (List Char)) :
    List (Nat × Nat) → Nat → Nat → Nat → List ReadVariant → Option (List ReadVariant)
  | [], _, _, _, acc => some acc
  | (op, len) :: rest, j, p, s, acc =>
    if op = 0 ∨ op = 7 ∨ op = 8 then
      match matchLoop variants seq qual len (skipBefore variants p j) p s acc with
      | none => none
      | some (j2, acc2) => faGo variants seq qual rest j2 (p + len) (s + len) acc2
    else if op = 1 then faGo variants seq qual rest j p (s + len) acc
    else if op = 2 ∨ op = 3 then faGo variants seq qual rest j (p + len) s acc
    else if op = 4 then faGo variants seq qual rest j p (s + len) acc
    else if op = 5 ∨ op = 6 then faGo variants seq qual rest j p s acc
    else none

/-- `find_alleles(variants, start, read)` where the read contributes
`read.pos`, `read.cigar`, `read.seq` and `read.qual`. -/
def find_alleles (variants : List Variant) (start : Nat) (pos : Nat)
    (cigar : List (Nat × Nat)) (seq : List Char) (qual : Option (List Char)) :
    Option (List ReadVariant) :=
  faGo variants seq qual cigar start pos 0 []

/-! Spec-side reference machine for the projector (spec §4.1): a matching
region is walked one reference position at a time; at each position the
*pending* variant is the first variant at or beyond the reference cursor,
and an observation is emitted exactly when its position equals the cursor.
Insertions and soft-clips advance only the read cursor, deletions and
reference-skips only the reference cursor, hard-clips and padding neither;
any other operator fails. -/
def specMatchStep (variants : List Variant) (seq : List Char) (qual : Option (List Char)) :
    Nat → Nat → Nat → Nat → List ReadVariant → Option (Nat × List ReadVariant)
  | 0, j, _, _, acc => some (j, acc)
  | fuel + 1, j, p, s, acc =>
    let jp := skipBefore variants p j
    match variants[jp]? with
    | none => specMatchStep variants seq qual fuel jp (p + 1) (s + 1) acc
    | some v =>
      if v.position = p then
        match observeAt v p s seq qual with
        | none => none
        | some rv => specMatchStep variants seq qual fuel (jp + 1) (p + 1) (s + 1) (acc ++ [rv])
      else specMatchStep variants seq qual fuel jp (p + 1) (s + 1) acc

def specFaGo (variants : List Variant) (seq : List Char) (qual : Option (List Char)) :
    List (Nat × Nat) → Nat → Nat → Nat → List ReadVariant → Option (List ReadVariant)
  | [], _, _, _, acc => some acc
  | (op, len) :: rest, j, p, s, acc =>
    if op = 0 ∨ op = 7 ∨ op = 8 then
      match specMatchStep variants seq qual len j p s acc with
      | none => none
      | some (j2, acc2) => specFaGo variants seq qual rest j2 (p + len) (s + len) acc2
    else if op = 1 ∨ op = 4 then specFaGo variants seq qual rest j p (s + len) acc
    else if op = 2 ∨ op = 3 then specFaGo variants seq qual rest j (p + len) s acc
    else if op = 5 ∨ op = 6 then specFaGo variants seq qual rest j p s acc
    else none

def specFindAlleles (variants : List Variant) (start : Nat) (pos : Nat)
    (cigar : List (Nat × Nat)) (seq : List Char) (qual : Option (List Char)) :
    Option (List ReadVariant) :=
  specFaGo variants seq qual cigar start pos 0 []

/-- The variant list is sorted with strictly increasing positions (the VCF
data-model invariant under which the projector is used). -/
def sortedByPos (variants : List Variant) : Prop :=
  List.Chain' (· < ·) (variants.map Variant.position)

instance (variants : List Variant) : Decidable (sortedByPos variants) :=
  decidable_of_iff _ (strictIncB_iff_chainLt (variants.map Variant.position))

lemma sortedByPos_consecutive {variants : List Variant} (hs : sortedByPos variants)
    (k : Nat) (u w : Variant) (hu : variants[k]? = some u)
    (hw : variants[k + 1]? = some w) : u.position < w.position := by
  obtain ⟨hk, hku⟩ := List.getElem?_eq_some_iff.1 hu
  obtain ⟨hk1, hkw⟩ := List.getElem?_eq_some_iff.1 hw
  have h := List.chain'_iff_get.1 hs k (by simp only [List.length_map]; omega)
  simp only [List.get_eq_getElem, List.getElem_map] at h
  rw [hku, hkw] at h
  exact h

lemma skipBeforeFuel_stop (variants : List Variant) (p : Nat) :
    ∀ (fuel j : Nat), variants.length ≤ j + fuel →
      ∀ v, variants[skipBeforeFuel variants p fuel j]? = some v → ¬ v.position < p := by
  intro fuel
  induction fuel with
  | zero =>
    intro j hj v hv
    have : j < variants.length := (List.getElem?_eq_some_iff.1 (by simpa [skipBeforeFuel] using hv)).1
    omega
  | succ fuel ih =>
    intro j hj v hv
    unfold skipBeforeFuel at hv
    cases hg : variants[j]? with
    | none =>
      simp only [hg] at hv
      exact absurd hv (by simp)
    | some w =>
      simp only [hg] at hv
      by_cases hlt : w.position < p
      · rw [if_pos hlt] at hv
        exact ih (j + 1) (by omega) v hv
      · rw [if_neg hlt] at hv
        rw [hg] at hv
        have hvw : w = v := by injection hv
        subst hvw
        exact hlt

lemma skipBefore_stop (variants : List Variant) (p j : Nat) :
    ∀ v, variants[skipBefore variants p j]? = some v → ¬ v.position < p := by
  intro v hv
  exact skipBeforeFuel_stop variants p (variants.length + 1 - j) j (by omega) v hv

lemma skipBefore_idem (variants : List Variant) (p j : Nat) :
    skipBefore variants p (skipBefore variants p j) = skipBefore variants p j := by
  cases hg : variants[skipBefore variants p j]? with
  | none => exact skipBefore_none variants p _ hg
  | some v => exact skipBefore_ge variants p _ v hg (skipBefore_stop variants p j v hg)

lemma specMatchStep_exhausted (variants : List Variant) (seq : List Char)
    (qual : Option (List Char)) :
    ∀ (fuel j p s : Nat) (acc : List ReadVariant), variants[j]? = none →
      specMatchStep variants seq qual fuel j p s acc = some (j, acc) := by
  intro fuel
  induction fuel with
  | zero => intro j p s acc _; rfl
  | succ fuel ih =>
    intro j p s acc hj
    unfold specMatchStep
    rw [skipBefore_none variants p j hj]
    dsimp only
    rw [hj]
    exact ih j (p + 1) (s + 1) acc hj

lemma matchLoop_eq_specMatchStep (variants : List Variant) (seq : List Char)
    (qual : Option (List Char)) (hs : sortedByPos variants) :
    ∀ (fuel j p s : Nat) (acc : List ReadVariant),
      (∀ v, variants[j]? = some v → p ≤ v.position) →
      matchLoop variants seq qual fuel j p s acc =
        specMatchStep variants seq qual fuel j p s acc := by
  intro fuel
  induction fuel with
  | zero => intro j p s acc _; rfl
  | succ fuel ih =>
    intro j p s acc hn
    unfold matchLoop specMatchStep
    dsimp only
    cases hg : variants[j]? with
    | none =>
      rw [skipBefore_none variants p j hg, hg]
      exact (specMatchStep_exhausted variants seq qual fuel j (p + 1) (s + 1) acc hg).symm
    | some v =>
      have hge : ¬ v.position < p := by
        have := hn v hg
        omega
      rw [skipBefore_ge variants p j v hg hge, hg]
      dsimp only
      by_cases heq : v.position = p
      · rw [if_pos heq, if_pos heq]
        cases hob : observeAt v p s seq qual with
        | none => rfl
        | some rv =>
          apply ih (j + 1) (p + 1) (s + 1) (acc ++ [rv])
          intro w hw
          have := sortedByPos_consecutive hs j v w hg hw
          omega
      · rw [if_neg heq, if_neg heq]
        apply ih j (p + 1) (s + 1) acc
        intro w hw
        rw [hg] at hw
        have hwv : w = v := by
          injection hw with h
          exact h.symm
        subst hwv
        have := hn w hg
        omega

lemma specMatchStep_skip_entry (variants : List Variant) (seq : List Char)
    (qual : Option (List Char)) (fuel j p s : Nat) (acc : List ReadVariant) :
    specMatchStep variants seq qual (fuel + 1) j p s acc =
      specMatchStep variants seq qual (fuel + 1) (skipBefore variants p j) p s acc := by
  conv_lhs => unfold specMatchStep
  conv_rhs => unfold specMatchStep
  rw [skipBefore_idem variants p j]

lemma faGo_eq_specFaGo (variants : List Variant) (seq : List Char)
    (qual : Option (List Char)) (hs : sortedByPos variants) :
    ∀ (cigar : List (Nat × Nat)) (j p s : Nat) (acc : List ReadVariant),
      (∀ opl ∈ cigar, 0 < opl.2) →
      faGo variants seq qual cigar j p s acc =
        specFaGo variants seq qual cigar j p s acc := by
  intro cigar
  induction cigar with
  | nil => intro j p s acc _; rfl
  | cons opl rest ih =>
    intro j p s acc hlen
    obtain ⟨op, len⟩ := opl
    have hlrest : ∀ opl ∈ rest, 0 < opl.2 := fun o ho => hlen o (by simp [ho])
    have hl : 0 < len := hlen (op, len) (by simp)
    unfold faGo specFaGo
    by_cases h1 : op = 0 ∨ op = 7 ∨ op = 8
    · rw [if_pos h1, if_pos h1]
      have hml : matchLoop variants seq qual len (skipBefore variants p j) p s acc =
          specMatchStep variants seq qual len j p s acc := by
        obtain ⟨fuel, rfl⟩ : ∃ fuel, len = fuel + 1 := ⟨len - 1, by omega⟩
        rw [specMatchStep_skip_entry]
        exact matchLoop_eq_specMatchStep variants seq qual hs (fuel + 1)
          (skipBefore variants p j) p s acc
          (fun v hv => by
            have := skipBefore_stop variants p j v hv
            omega)
      rw [hml]
      cases specMatchStep variants seq qual len j p s acc with
      | none => rfl
      | some r => exact ih r.1 (p + len) (s + len) r.2 hlrest
    · rw [if_neg h1, if_neg h1]
      by_cases h2 : op = 1
      · rw [if_pos h2, if_pos (Or.inl h2)]
        exact ih j p (s + len) acc hlrest
      · by_cases h4 : op = 4
        · rw [if_neg h2, if_neg (show ¬ (op = 2 ∨ op = 3) by simp [h4]),
            if_pos h4, if_pos (Or.inr h4)]
          exact ih j p (s + len) acc hlrest
        · by_cases h3 : op = 2 ∨ op = 3
          · rw [if_neg h2, if_pos h3, if_neg (show ¬ (op = 1 ∨ op = 4) by simp [h2, h4]),
              if_pos h3]
            exact ih j (p + len) s acc hlrest
          · by_cases h5 : op = 5 ∨ op = 6
            · rw [if_neg h2, if_neg h3, if_neg h4, if_pos h5,
                if_neg (show ¬ (op = 1 ∨ op = 4) by simp [h2, h4]), if_neg h3, if_pos h5]
              exact ih j p s acc hlrest
            · rw [if_neg h2, if_neg h3, if_neg h4, if_neg h5,
                if_neg (show ¬ (op = 1 ∨ op = 4) by simp [h2, h4]), if_neg h3, if_neg h5]

/-- C8: on a sorted variant list (and a CIGAR with positive operation
lengths), `find_alleles` computes exactly the spec's cursor machine: in
match / seq-match / seq-mismatch regions both cursors advance and an
observation (allele 0 on reference match, 1 on alternative match, E
otherwise, quality from the same read offset) is emitted at each reference
position equal to the next pending variant; insertion / soft-clip advance
only the read cursor, deletion / reference-skip only the reference cursor,
hard-clip / padding neither; any other operator fails. -/
theorem find_alleles_implements_cigar_cursor_semantics
    (variants : List Variant) (start pos : Nat) (cigar : List (Nat × Nat))
    (seq : List Char) (qual : Option (List Char))
    (hsorted : sortedByPos variants) (hlen : ∀ opl ∈ cigar, 0 < opl.2) :
    find_alleles variants start pos cigar seq qual =
      specFindAlleles variants start pos cigar seq qual := by
  unfold find_alleles specFindAlleles
  exact faGo_eq_specFaGo variants seq qual hsorted cigar start pos 0 [] hlen

def witVariantsC8 : List Variant :=
  [⟨2, ['A'], ['C']⟩, ⟨4, ['G'], ['T']⟩, ⟨9, ['A'], ['G']⟩]

theorem find_alleles_implements_cigar_cursor_semantics_witness :
    sortedByPos witVariantsC8 ∧
    (∀ opl ∈ [((0 : Nat), (3 : Nat)), (1, 2), (2, 2), (0, 3)], 0 < opl.2) ∧
    find_alleles witVariantsC8 0 1 [((0 : Nat), (3 : Nat)), (1, 2), (2, 2), (0, 3)]
        ['T', 'A', 'C', 'X', 'X', 'G', 'T', 'A']
        (some ['#', '5', '5', '#', '#', '5', '5', '5']) =
      specFindAlleles witVariantsC8 0 1 [((0 : Nat), (3 : Nat)), (1, 2), (2, 2), (0, 3)]
        ['T', 'A', 'C', 'X', 'X', 'G', 'T', 'A']
        (some ['#', '5', '5', '#', '#', '5', '5', '5']) :=
  ⟨by decide, by decide,
    find_alleles_implements_cigar_cursor_semantics witVariantsC8 0 1 _ _ _
      (by decide) (by decide)⟩

/-- Provenance of an emitted observation: its quality is the Phred decoding
(`ord(qual[s]) - 33`) of the base-quality character at the same read offset
`s` from which the observed base `seq[s:s+1]` was taken. -/
def qualityFromOffset (seq qs : List Char) (rv : ReadVariant) : Prop :=
  ∃ s c, qs[s]? = some c ∧ rv.quality = (c.toNat : Int) - 33 ∧
    rv.base = (seq.drop s).take 1

lemma observeAt_some_quality (v : Variant) (p s : Nat) (seq qs : List Char)
    (rv : ReadVariant) (h : observeAt v p s seq (some qs) = some rv) :
    qualityFromOffset seq qs rv := by
  unfold observeAt at h
  dsimp only at h
  cases htake : (qs.drop s).take 1 with
  | nil => rw [htake] at h; exact absurd h (by simp)
  | cons c tl =>
    rw [htake] at h
    dsimp only at h
    injection h with h
    subst h
    have hc : qs[s]? = some c := by
      have h0 : ((qs.drop s).take 1)[0]? = some c := by rw [htake]; simp
      rw [List.getElem?_take_of_lt (by omega)] at h0
      rw [List.getElem?_drop] at h0
      simpa using h0
    exact ⟨s, c, hc, rfl, rfl⟩

lemma matchLoop_preserves_quality (variants : List Variant) (seq qs : List Char) :
    ∀ (fuel j p s : Nat) (acc acc2 : List ReadVariant) (j2 : Nat),
      matchLoop variants seq (some qs) fuel j p s acc = some (j2, acc2) →
      (∀ rv ∈ acc, qualityFromOffset seq qs rv) →
      ∀ rv ∈ acc2, qualityFromOffset seq qs rv := by
  intro fuel
  induction fuel with
  | zero =>
    intro j p s acc acc2 j2 h hacc
    unfold matchLoop at h
    injection h with h
    injection h with h1 h2
    subst h2
    exact hacc
  | succ fuel ih =>
    intro j p s acc acc2 j2 h hacc
    unfold matchLoop at h
    cases hg : variants[j]? with
    | none =>
      rw [hg] at h
      injection h with h
      injection h with h1 h2
      subst h2
      exact hacc
    | some v =>
      rw [hg] at h
      dsimp only at h
      by_cases heq : v.position = p
      · rw [if_pos heq] at h
        cases hob : observeAt v p s seq (some qs) with
        | none => rw [hob] at h; exact absurd h (by simp)
        | some rv0 =>
          rw [hob] at h
          refine ih (j + 1) (p + 1) (s + 1) (acc ++ [rv0]) acc2 j2 h ?_
          intro rv hrv
          rcases List.mem_append.1 hrv with hmem | hmem
          · exact hacc rv hmem
          · have : rv = rv0 := by simpa using hmem
            subst this
            exact observeAt_some_quality v p s seq qs rv hob
      · rw [if_neg heq] at h
        exact ih j (p + 1) (s + 1) acc acc2 j2 h hacc

lemma faGo_preserves_quality (variants : List Variant) (seq qs : List Char) :
    ∀ (cigar : List (Nat × Nat)) (j p s : Nat) (acc rvs : List ReadVariant),
      faGo variants seq (some qs) cigar j p s acc = some rvs →
      (∀ rv ∈ acc, qualityFromOffset seq qs rv) →
      ∀ rv ∈ rvs, qualityFromOffset seq qs rv := by
  intro cigar
  induction cigar with
  | nil =>
    intro j p s acc rvs h hacc
    unfold faGo at h
    injection h with h
    rw [← h]
    exact hacc
  | cons opl rest ih =>
    intro j p s acc rvs h hacc
    obtain ⟨op, len⟩ := opl
    unfold faGo at h
    by_cases h1 : op = 0 ∨ op = 7 ∨ op = 8
    · rw [if_pos h1] at h
      cases hml : matchLoop variants seq (some qs) len (skipBefore variants p j) p s acc with
      | none => rw [hml] at h; exact absurd h (by simp)
      | some r =>
        rw [hml] at h
        exact ih r.1 (p + len) (s + len) r.2 rvs h
          (matchLoop_preserves_quality variants seq qs len (skipBefore variants p j)
            p s acc r.2 r.1 (by rw [hml]) hacc)
    · rw [if_neg h1] at h
      by_cases h2 : op = 1
      · rw [if_pos h2] at h; exact ih j p (s + len) acc rvs h hacc
      · rw [if_neg h2] at h
        by_cases h3 : op = 2 ∨ op = 3
        · rw [if_pos h3] at h; exact ih j (p + len) s acc rvs h hacc
        · rw [if_neg h3] at h
          by_cases h4 : op = 4
          · rw [if_pos h4] at h; exact ih j p (s + len) acc rvs h hacc
          · rw [if_neg h4] at h
            by_cases h5 : op = 5 ∨ op = 6
            · rw [if_pos h5] at h; exact ih j p s acc rvs h hacc
            · rw [if_neg h5] at h; exact absurd h (by simp)

/-- C7 (amended): when the alignment has a base-quality string, every
emitted observation's quality is the Phred-encoded base quality at that
observation's read offset (the same offset its base was read from). -/
theorem find_alleles_quality_is_phred_at_offset
    (variants : List Variant) (start pos : Nat) (cigar : List (Nat × Nat))
    (seq qs : List Char) (rvs : List ReadVariant)
    (h : find_alleles variants start pos cigar seq (some qs) = some rvs) :
    ∀ rv ∈ rvs, ∃ s c, qs[s]? = some c ∧ rv.quality = (c.toNat : Int) - 33 ∧
      rv.base = (seq.drop s).take 1 :=
  faGo_preserves_quality variants seq qs cigar start pos 0 [] rvs h (by simp)

theorem find_alleles_quality_is_phred_at_offset_witness :
    find_alleles [⟨1, ['A'], ['C']⟩] 0 0 [((0 : Nat), (3 : Nat))] ['G', 'A', 'T']
        (some ['#', '(', '2']) =
      some [⟨1, ['A'], '0', 7⟩] ∧
    ∀ rv ∈ [(⟨1, ['A'], '0', 7⟩ : ReadVariant)],
      ∃ s c, (['#', '(', '2'] : List Char)[s]? = some c ∧
        rv.quality = (c.toNat : Int) - 33 ∧
        rv.base = ((['G', 'A', 'T'] : List Char).drop s).take 1 := by
  have h : find_alleles [⟨1, ['A'], ['C']⟩] 0 0 [((0 : Nat), (3 : Nat))] ['G', 'A', 'T']
      (some ['#', '(', '2']) = some [⟨1, ['A'], '0', 7⟩] := by decide
  exact ⟨h, find_alleles_quality_is_phred_at_offset _ 0 0 _ _ _ _ h⟩

/-- C7 (counterexample to the claim as stated): on an alignment with no
base-quality string (`read.qual is None`) that covers a variant, the
projector *fails* (TypeError on `ord(None[s:s+1])`) — it does not
substitute any default quality. There is no default-quality configuration
anywhere in `find_alleles`. -/
theorem find_alleles_no_default_quality_counterexample :
    find_alleles [⟨0, ['A'], ['C']⟩] 0 0 [((0 : Nat), (1 : Nat))] ['A'] none = none := by
  decide

/-! ## Read assembler (`BamReader.read`, scripts/whatshap.py lines 124-164) -/

/-- One alignment record, with the fields `BamReader.read` consults. `rg`
is the optional RG tag; `none` means the alignment carries no read group. -/
structure BamAlignment where
  qname : String
  flag : Nat
  is_secondary : Bool
  is_unmapped : Bool
  mapq : Nat
  cigar : List (Nat × Nat)
  pos : Nat
  seq : List Char
  qual : Option (List Char)
  rg : Option String
deriving DecidableEq, Repr

/-- The read-group test `sample is not None and not read.opt('RG') in
read_groups`: `some true` = fall through to the remaining checks,
`some false` = `continue` (skip the read), `none` = `read.opt('RG')`
raises `KeyError` because the alignment has no RG tag. -/
def rgCheck (readGroups : Option (List String)) (rd : BamAlignment) : Option Bool :=
  match readGroups with
  | none => some true
  | some gs =>
    match rd.rg with
    | none => none
    | some g => if g ∈ gs then some true else some false

/-- The fetch loop of `BamReader.read`: `i` is the persistent index into the
variant list, advanced for each processed read; skipped reads leave it
unchanged. -/
def bamReadGo (variants : List Variant) (mapqThreshold : Nat)
    (readGroups : Option (List String)) :
    List BamAlignment → Nat → List ReadVariantList → Option (List ReadVariantList)
  | [], _, acc => some acc
  | rd :: rest, i, acc =>
    match rgCheck readGroups rd with
    | none => none
    | some false => bamReadGo variants mapqThreshold readGroups rest i acc
    | some true =>
      if rd.flag &&& 2048 ≠ 0 ∨ rd.is_secondary ∨ rd.is_unmapped ∨
          rd.mapq < mapqThreshold ∨ rd.cigar = [] then
        bamReadGo variants mapqThreshold readGroups rest i acc
      else
        let i2 := skipBefore variants rd.pos i
        match find_alleles variants i2 rd.pos rd.cigar rd.seq rd.qual with
        | none => none
        | some rvs =>
          if rvs = [] then bamReadGo variants mapqThreshold readGroups rest i2 acc
          else bamReadGo variants mapqThreshold readGroups rest i2
            (acc ++ [⟨rd.qname, .single rd.mapq, rvs.map some⟩])

/-- `BamReader.read(chromosome, variants, sample)`: look up the sample's
read groups (KeyError if the sample is unknown), then run the fetch loop. -/
def bamReaderRead (sampleToGroups : List (String × List String))
    (mapqThreshold : Nat) (alignments : List BamAlignment)
    (variants : List Variant) (sample : Option String) :
    Option (List ReadVariantList) :=
  match sample with
  | none => bamReadGo variants mapqThreshold none alignments 0 []
  | some s =>
    match sampleToGroups.lookup s with
    | none => none
    | some gs => bamReadGo variants mapqThreshold (some gs) alignments 0 []

/-- An ordinary well-mapped alignment that carries no RG tag. -/
def alignNoRG : BamAlignment :=
  { qname := "a1", flag := 0, is_secondary := false, is_unmapped := false,
    mapq := 60, cigar := [(0, 4)], pos := 100, seq := ['A', 'C', 'G', 'T'],
    qual := some ['5', '5', '5', '5'], rg := none }

/-- C6: when a sample is specified, an alignment without an RG tag makes
`BamReader.read` *fail* (uncaught `KeyError` from `read.opt('RG')`), not
silently skip — the first conjunct evaluates the failing input. When
`sample` is `None`, the same alignment passes the read-group check and the
run succeeds (second conjunct). -/
theorem bamReader_missing_rg_tag_raises :
    bamReaderRead [("S", ["G1"])] 20 [alignNoRG] [] (some "S") = none ∧
    bamReaderRead [("S", ["G1"])] 20 [alignNoRG] [] none = some [] := by
  constructor
  · decide
  · decide

/-! ## Coverage slicer (`CoverageMonitor` and `slice_reads`,
scripts/whatshap.py lines 255-344)

`position_set` + `sorted` are modelled as a fold of sorted-insert-without-
duplicates, giving the strictly sorted list of all variant positions on the
reads; `position_to_index[p]` is `posIndex`. -/

def allPositions (reads : List ReadVariantList) : List Nat :=
  reads.flatMap fun r => (nonSentinel r).map ReadVariant.position

/-- Insert a value into a strictly sorted list, keeping it sorted and
duplicate-free. -/
def insertPos (p : Nat) : List Nat → List Nat
  | [] => [p]
  | q :: rest =>
    if p < q then p :: q :: rest
    else if p = q then q :: rest
    else q :: insertPos p rest

/-- `sorted(position_set(reads))`. -/
def position_list (reads : List ReadVariantList) : List Nat :=
  (allPositions reads).foldr insertPos []

lemma mem_insertPos (p x : Nat) : ∀ l : List Nat, x ∈ insertPos p l ↔ x = p ∨ x ∈ l := by
  intro l
  induction l with
  | nil => simp [insertPos]
  | cons q rest ih =>
    unfold insertPos
    by_cases h1 : p < q
    · simp [h1]
    · rw [if_neg h1]
      by_cases h2 : p = q
      · subst h2
        simp [if_pos rfl]
      · rw [if_neg h2]
        simp [ih]
        tauto

lemma sorted_insertPos (p : Nat) : ∀ l : List Nat,
    List.Chain' (· < ·) l → List.Chain' (· < ·) (insertPos p l) := by
  intro l
  induction l with
  | nil => intro _; simp [insertPos]
  | cons q rest ih =>
    intro hs
    have hrest : List.Chain' (· < ·) rest := (List.chain'_cons'.1 hs).2
    unfold insertPos
    by_cases h1 : p < q
    · rw [if_pos h1]
      exact List.chain'_cons.2 ⟨h1, hs⟩
    · rw [if_neg h1]
      by_cases h2 : p = q
      · rw [if_pos h2]; exact hs
      · rw [if_neg h2]
        have hqp : q < p := by omega
        cases rest with
        | nil =>
          simp [insertPos]
          exact hqp
        | cons a as =>
          have hqa : q < a := (List.chain'_cons.1 hs).1
          have htail : List.Chain' (· < ·) (insertPos p (a :: as)) := ih hrest
          refine List.chain'_cons'.2 ⟨?_, htail⟩
          intro y hy
          unfold insertPos at hy
          by_cases g1 : p < a
          · rw [if_pos g1] at hy
            simp at hy
            omega
          · rw [if_neg g1] at hy
            by_cases g2 : p = a
            · rw [if_pos g2] at hy
              simp at hy
              omega
            · rw [if_neg g2] at hy
              simp at hy
              omega

lemma sorted_position_list (reads : List ReadVariantList) :
    List.Chain' (· < ·) (position_list reads) := by
  unfold position_list
  induction allPositions reads with
  | nil => simp
  | cons p rest ih => exact sorted_insertPos p _ ih

lemma mem_position_list (reads : List ReadVariantList) (x : Nat) :
    x ∈ position_list reads ↔ x ∈ allPositions reads := by
  unfold position_list
  induction allPositions reads with
  | nil => simp
  | cons p rest ih =>
    simp only [List.foldr_cons, mem_insertPos, ih, List.mem_cons]

/-- `position_to_index[p]`: index of `p` in the sorted position list. -/
def posIndex : List Nat → Nat → Nat
  | [], _ => 0
  | q :: rest, p => if p = q then 0 else posIndex rest p + 1

lemma posIndex_lt_length (l : List Nat) (p : Nat) (h : p ∈ l) :
    posIndex l p < l.length := by
  induction l with
  | nil => simp at h
  | cons q rest ih =>
    unfold posIndex
    by_cases h1 : p = q
    · simp [h1]
    · rw [if_neg h1]
      have : p ∈ rest := by
        rcases List.mem_cons.1 h with h2 | h2
        · exact absurd h2 h1
        · exact h2
      simpa using ih this

lemma getElem?_posIndex (l : List Nat) (p : Nat) (h : p ∈ l) :
    l[posIndex l p]? = some p := by
  induction l with
  | nil => simp at h
  | cons q rest ih =>
    unfold posIndex
    by_cases h1 : p = q
    · simp [h1]
    · rw [if_neg h1]
      have : p ∈ rest := by
        rcases List.mem_cons.1 h with h2 | h2
        · exact absurd h2 h1
        · exact h2
      simpa using ih this

lemma posIndex_strict_mono : ∀ (l : List Nat), l.Pairwise (· < ·) →
    ∀ p q, p ∈ l → q ∈ l → p < q → posIndex l p < posIndex l q := by
  intro l
  induction l with
  | nil => intro _ p q hp; simp at hp
  | cons a rest ih =>
    intro hp p q hpm hqm hpq
    rcases List.pairwise_cons.1 hp with ⟨hlt, hprest⟩
    unfold posIndex
    by_cases h1 : p = a
    · rw [if_pos h1]
      have hqa : q ≠ a := by omega
      rw [if_neg hqa]
      omega
    · rw [if_neg h1]
      have hpr : p ∈ rest := by
        rcases List.mem_cons.1 hpm with h | h
        · exact absurd h h1
        · exact h
      have hqa : q ≠ a := by
        intro h
        subst h
        have := hlt p hpr
        omega
      rw [if_neg hqa]
      have hqr : q ∈ rest := by
        rcases List.mem_cons.1 hqm with h | h
        · exact absurd h hqa
        · exact h
      have := ih hprest p q hpr hqr hpq
      omega

/-- `CoverageMonitor.max_coverage_in_range(begin, end)`:
`max(self.coverage[begin:end])`. Python's `max` raises on an empty slice;
the embedding guards `b < e` at the call site in `sliceGo` instead (the
guard can only fail there, where the slice would be empty). -/
def max_coverage_in_range (cov : List Nat) (b e : Nat) : Nat :=
  ((cov.drop b).take (e - b)).foldl Nat.max 0

/-- `CoverageMonitor.add_read(begin, end)`: increment `coverage[i]` for
`b ≤ i < e` (in `slice_reads` the range is always within bounds). -/
def addReadAux : List Nat → Nat → Nat → Nat → List Nat
  | [], _, _, _ => []
  | c :: cs, i, b, e => (if b ≤ i ∧ i < e then c + 1 else c) :: addReadAux cs (i + 1) b e

def add_read (cov : List Nat) (b e : Nat) : List Nat := addReadAux cov 0 b e

lemma length_addReadAux : ∀ (cov : List Nat) (i b e : Nat),
    (addReadAux cov i b e).length = cov.length := by
  intro cov
  induction cov with
  | nil => intro i b e; rfl
  | cons c cs ih => intro i b e; simp [addReadAux, ih]

lemma getElem?_addReadAux : ∀ (cov : List Nat) (i0 b e k : Nat),
    (addReadAux cov i0 b e)[k]? =
      (cov[k]?).map fun c => if b ≤ i0 + k ∧ i0 + k < e then c + 1 else c := by
  intro cov
  induction cov with
  | nil => intro i0 b e k; simp [addReadAux]
  | cons c cs ih =>
    intro i0 b e k
    cases k with
    | zero => simp [addReadAux]
    | succ k =>
      simp only [addReadAux, List.getElem?_cons_succ, ih (i0 + 1) b e k]
      have : i0 + 1 + k = i0 + (k + 1) := by omega
      rw [this]

lemma getElem?_add_read (cov : List Nat) (b e k : Nat) :
    (add_read cov b e)[k]? = (cov[k]?).map fun c => if b ≤ k ∧ k < e then c + 1 else c := by
  unfold add_read
  rw [getElem?_addReadAux]
  simp

lemma length_add_read (cov : List Nat) (b e : Nat) :
    (add_read cov b e).length = cov.length := length_addReadAux cov 0 b e

lemma foldl_max_lt (m : Nat) : ∀ (l : List Nat) (a : Nat),
    l.foldl Nat.max a < m ↔ a < m ∧ ∀ x ∈ l, x < m := by
  intro l
  induction l with
  | nil => intro a; simp
  | cons x xs ih =>
    intro a
    simp only [List.foldl_cons, ih (Nat.max a x), Nat.max_lt, List.mem_cons]
    constructor
    · intro ⟨⟨h1, h2⟩, h3⟩
      exact ⟨h1, fun y hy => by rcases hy with rfl | hy; exacts [h2, h3 y hy]⟩
    · intro ⟨h1, h2⟩
      exact ⟨⟨h1, h2 x (Or.inl rfl)⟩, fun y hy => h2 y (Or.inr hy)⟩

lemma mem_take_drop_iff (l : List Nat) (b n x : Nat) :
    x ∈ (l.drop b).take n ↔ ∃ i, b ≤ i ∧ i < b + n ∧ l[i]? = some x := by
  rw [List.mem_iff_getElem?]
  constructor
  · intro ⟨k, hk⟩
    rw [List.getElem?_take] at hk
    by_cases hkn : k < n
    · rw [if_pos hkn, List.getElem?_drop] at hk
      exact ⟨b + k, by omega, by omega, hk⟩
    · rw [if_neg hkn] at hk
      exact absurd hk (by simp)
  · intro ⟨i, hbi, hin, hx⟩
    refine ⟨i - b, ?_⟩
    rw [List.getElem?_take, if_pos (by omega), List.getElem?_drop]
    rw [show b + (i - b) = i by omega]
    exact hx

lemma max_coverage_in_range_lt (cov : List Nat) (b e m : Nat) :
    max_coverage_in_range cov b e < m ↔
      0 < m ∧ ∀ i c, b ≤ i → i < e → cov[i]? = some c → c < m := by
  unfold max_coverage_in_range
  rw [foldl_max_lt]
  constructor
  · intro ⟨h0, hall⟩
    refine ⟨h0, ?_⟩
    intro i c hbi hie hc
    refine hall c ?_
    rw [mem_take_drop_iff]
    exact ⟨i, hbi, by omega, hc⟩
  · intro ⟨h0, hall⟩
    refine ⟨h0, ?_⟩
    intro x hx
    rw [mem_take_drop_iff] at hx
    obtain ⟨i, hbi, hin, hx⟩ := hx
    by_cases hie : i < e
    · exact hall i x hbi hie hx
    · omega

lemma max_coverage_in_range_zeros (V b e m : Nat) (hm : 0 < m) :
    max_coverage_in_range (List.replicate V 0) b e < m := by
  rw [max_coverage_in_range_lt]
  refine ⟨hm, ?_⟩
  intro i c _ _ hc
  rw [List.getElem?_replicate] at hc
  by_cases h : i < V
  · rw [if_pos h] at hc
    injection hc with hc
    omega
  · rw [if_neg h] at hc
    exact absurd hc (by simp)

/-- The `while True` layer-search loop of `slice_reads`: try layer
`slice_id`; on failure move to the next, appending a fresh empty layer when
`slice_id == len(slices)`. The fuel (`slices.length + 2` at the call site)
bounds the iterations; exhausting it (`none`) models the infinite loop the
Python code enters when even a fresh zero layer does not satisfy
`max(coverage[b:e]) < max_coverage` (only possible for `max_coverage = 0`). -/
def placeLoop (maxCov b e V : Nat) (r : ReadVariantList) :
    Nat → List (List ReadVariantList) → List (List Nat) → Nat →
    Option (List (List ReadVariantList) × List (List Nat))
  | 0, _, _, _ => none
  | fuel + 1, slices, covs, sid =>
    match covs[sid]? with
    | none => none
    | some cov =>
      if max_coverage_in_range cov b e < maxCov then
        some (slices.set sid (slices.getD sid [] ++ [r]), covs.set sid (add_read cov b e))
      else
        if sid + 1 = slices.length then
          placeLoop maxCov b e V r fuel (slices ++ [[]]) (covs ++ [List.replicate V 0]) (sid + 1)
        else
          placeLoop maxCov b e V r fuel slices covs (sid + 1)

/-- The compressed index interval `[b, e)` of a fragment: indices of the
positions of `read.variants[0]` and `read.variants[-1]`; `none` when either
end is the sentinel (`None.position` raises in Python). -/
def readInterval (plist : List Nat) (r : ReadVariantList) : Option (Nat × Nat) :=
  match r.variants.head?, r.variants.getLast? with
  | some (some v0), some (some vl) =>
    some (posIndex plist v0.position, posIndex plist vl.position + 1)
  | _, _ => none

/-- Sort key of the final per-slice sort (`r.variants[0].position`; every
read placed in a slice has a non-sentinel first observation). -/
def keyPos (r : ReadVariantList) : Nat :=
  match r.variants.head? with
  | some (some v) => v.position
  | _ => 0

/-- Stable insertion sort by `keyPos` (Python's stable `list.sort(key=...)`:
a new element goes after all elements with key not greater than its own). -/
def insertByKey (r : ReadVariantList) : List ReadVariantList → List ReadVariantList
  | [] => [r]
  | x :: xs => if keyPos r < keyPos x then r :: x :: xs else x :: insertByKey r xs

def sortSlice (l : List ReadVariantList) : List ReadVariantList :=
  l.foldl (fun acc r => insertByKey r acc) []

lemma insertByKey_perm (r : ReadVariantList) :
    ∀ l : List ReadVariantList, (insertByKey r l).Perm (r :: l) := by
  intro l
  induction l with
  | nil => simp [insertByKey]
  | cons x xs ih =>
    unfold insertByKey
    by_cases h : keyPos r < keyPos x
    · rw [if_pos h]
    · rw [if_neg h]
      exact (ih.cons x).trans (List.Perm.swap r x xs)

lemma sortSlice_perm (l : List ReadVariantList) : (sortSlice l).Perm l := by
  have main : ∀ (l acc : List ReadVariantList),
      (l.foldl (fun acc r => insertByKey r acc) acc).Perm (acc ++ l) := by
    intro l
    induction l with
    | nil => intro acc; simp
    | cons r rest ih =>
      intro acc
      simp only [List.foldl_cons]
      refine (ih (insertByKey r acc)).trans ?_
      have h1 : (insertByKey r acc ++ rest).Perm ((r :: acc) ++ rest) :=
        (insertByKey_perm r acc).append_right rest
      refine h1.trans ?_
      simp only [List.cons_append]
      exact (List.Perm.symm (List.perm_middle))
  simpa using main l []

/-- The fragment loop of `slice_reads`: skip fragments covering fewer than
two variants, compute the compressed interval of the others and place them
with the layer-search loop; at the end sort each slice by first-observation
position. `none` models a crash (sentinel at either end: `None.position`;
empty coverage slice `b ≥ e`: `max([])`; or the `max_coverage = 0`
non-termination). -/
def sliceGo (maxCov : Nat) (plist : List Nat) :
    List ReadVariantList → List (List ReadVariantList) → List (List Nat) →
    Option (List (List ReadVariantList))
  | [], slices, _ => some (slices.map sortSlice)
  | r :: rest, slices, covs =>
    if r.variants.length < 2 then sliceGo maxCov plist rest slices covs
    else
      match readInterval plist r with
      | none => none
      | some (b, e) =>
        if b < e then
          match placeLoop maxCov b e plist.length r (slices.length + 2) slices covs 0 with
          | none => none
          | some (s2, c2) => sliceGo maxCov plist rest s2 c2
        else none

/-- `slice_reads(reads, max_coverage)`: start from one empty slice with a
zero coverage vector over the compressed position space. -/
def slice_reads (reads : List ReadVariantList) (maxCov : Nat) :
    Option (List (List ReadVariantList)) :=
  sliceGo maxCov (position_list reads) reads [[]]
    [List.replicate (position_list reads).length 0]

/-- Layer `k` accepts the interval `[b, e)`:
`max(coverage[b:e]) < max_coverage`. -/
def layerFits (maxCov b e : Nat) (covs : List (List Nat)) (k : Nat) : Prop :=
  max_coverage_in_range (covs.getD k []) b e < maxCov

instance (maxCov b e : Nat) (covs : List (List Nat)) (k : Nat) :
    Decidable (layerFits maxCov b e covs k) :=
  inferInstanceAs (Decidable (_ < _))

lemma getD_of_getElem? {α : Type} {l : List α} {k : Nat} {x d : α}
    (h : l[k]? = some x) : l.getD k d = x := by
  rw [List.getD_eq_getElem?_getD, h]
  rfl

lemma set_append_singleton {α : Type} (x y : α) :
    ∀ l : List α, (l ++ [x]).set l.length y = l ++ [y] := by
  intro l
  induction l with
  | nil => rfl
  | cons a as ih => simp [ih]

lemma placeLoop_spec (maxCov b e V : Nat) (r : ReadVariantList) (hmax : 0 < maxCov) :
    ∀ (fuel sid : Nat) (slices : List (List ReadVariantList)) (covs : List (List Nat)),
      covs.length = slices.length → sid < slices.length →
      slices.length - sid + 1 ≤ fuel →
      (∀ k, k < sid → ¬ layerFits maxCov b e covs k) →
      (∃ k, sid ≤ k ∧ k < slices.length ∧ layerFits maxCov b e covs k ∧
          (∀ j, j < k → ¬ layerFits maxCov b e covs j) ∧
          placeLoop maxCov b e V r fuel slices covs sid =
            some (slices.set k (slices.getD k [] ++ [r]),
                  covs.set k (add_read (covs.getD k []) b e))) ∨
      ((∀ k, k < slices.length → ¬ layerFits maxCov b e covs k) ∧
        placeLoop maxCov b e V r fuel slices covs sid =
          some (slices ++ [[r]], covs ++ [add_read (List.replicate V 0) b e])) := by
  intro fuel
  induction fuel with
  | zero => intro sid slices covs hlen hsid hfuel hprev; omega
  | succ fuel ih =>
    intro sid slices covs hlen hsid hfuel hprev
    cases hcov : covs[sid]? with
    | none =>
      have : covs.length ≤ sid := List.getElem?_eq_none_iff.1 hcov
      omega
    | some cov =>
      have hgetD : covs.getD sid [] = cov := getD_of_getElem? hcov
      unfold placeLoop
      rw [hcov]
      dsimp only
      by_cases hfit : max_coverage_in_range cov b e < maxCov
      · rw [if_pos hfit]
        left
        refine ⟨sid, le_refl sid, hsid, ?_, ?_, ?_⟩
        · unfold layerFits; rw [hgetD]; exact hfit
        · intro j hj; exact hprev j hj
        · rw [hgetD]
      · rw [if_neg hfit]
        have hnotfit : ¬ layerFits maxCov b e covs sid := by
          unfold layerFits; rw [hgetD]; exact hfit
        by_cases happ : sid + 1 = slices.length
        · rw [if_pos happ]
          right
          have hall : ∀ k, k < slices.length → ¬ layerFits maxCov b e covs k := by
            intro k hk
            by_cases hks : k < sid
            · exact hprev k hks
            · have : k = sid := by omega
              subst this
              exact hnotfit
          refine ⟨hall, ?_⟩
          obtain ⟨fuel2, rfl⟩ : ∃ f2, fuel = f2 + 1 := ⟨fuel - 1, by omega⟩
          unfold placeLoop
          have hcl : sid + 1 = covs.length := by omega
          have hconc : (covs ++ [List.replicate V 0])[sid + 1]? = some (List.replicate V 0) := by
            rw [hcl]
            exact List.getElem?_concat_length covs _
          rw [hconc]
          dsimp only
          rw [if_pos (max_coverage_in_range_zeros V b e maxCov hmax)]
          have hs1 : (slices ++ [[]]).getD (sid + 1) [] = ([] : List ReadVariantList) := by
            refine getD_of_getElem? ?_
            rw [happ]
            exact List.getElem?_concat_length slices _
          rw [hs1]
          have hset1 : (slices ++ [[]]).set (sid + 1) ([] ++ [r]) = slices ++ [[r]] := by
            rw [happ]
            simp [set_append_singleton ([] : List ReadVariantList) [r] slices]
          have hset2 : (covs ++ [List.replicate V 0]).set (sid + 1)
              (add_read (List.replicate V 0) b e) =
              covs ++ [add_read (List.replicate V 0) b e] := by
            rw [hcl]
            exact set_append_singleton _ _ covs
          rw [hset1, hset2]
        · rw [if_neg happ]
          have hprev2 : ∀ k, k < sid + 1 → ¬ layerFits maxCov b e covs k := by
            intro k hk
            by_cases hks : k < sid
            · exact hprev k hks
            · have : k = sid := by omega
              subst this
              exact hnotfit
          rcases ih (sid + 1) slices covs hlen (by omega) (by omega) hprev2 with
            ⟨k, hk1, hk2, hk3, hk4, hk5⟩ | ⟨h1, h2⟩
          · left
            exact ⟨k, by omega, hk2, hk3, hk4, hk5⟩
          · right
            exact ⟨h1, h2⟩

/-- The fragment's compressed interval contains index `i`. -/
def coversIdx (plist : List Nat) (r : ReadVariantList) (i : Nat) : Bool :=
  match readInterval plist r with
  | some (b, e) => decide (b ≤ i) && decide (i < e)
  | none => false

/-- Number of fragments of `l` whose compressed interval contains `i`
(the quantity the coverage vectors track). -/
def coverAt (plist : List Nat) (l : List ReadVariantList) (i : Nat) : Nat :=
  (l.filter fun r => coversIdx plist r i).length

lemma coverAt_append_single (plist : List Nat) (sl : List ReadVariantList)
    (r : ReadVariantList) (i : Nat) :
    coverAt plist (sl ++ [r]) i =
      coverAt plist sl i + (if coversIdx plist r i = true then 1 else 0) := by
  unfold coverAt
  rw [List.filter_append]
  by_cases h : coversIdx plist r i = true
  · simp [h]
  · simp [h]

lemma coverAt_perm (plist : List Nat) {l1 l2 : List ReadVariantList}
    (h : l1.Perm l2) (i : Nat) : coverAt plist l1 i = coverAt plist l2 i :=
  (h.filter _).length_eq

lemma coversIdx_of_interval (plist : List Nat) (r : ReadVariantList) (b e i : Nat)
    (hr : readInterval plist r = some (b, e)) :
    coversIdx plist r i = true ↔ (b ≤ i ∧ i < e) := by
  unfold coversIdx
  rw [hr]
  simp

lemma getD_set_ne {α : Type} (l : List α) (k k' : Nat) (x d : α) (h : k ≠ k') :
    (l.set k x).getD k' d = l.getD k' d := by
  rw [List.getD_eq_getElem?_getD, List.getD_eq_getElem?_getD, List.getElem?_set_ne h]

lemma getD_set_self {α : Type} (l : List α) (k : Nat) (x d : α) (h : k < l.length) :
    (l.set k x).getD k d = x := by
  rw [List.getD_eq_getElem?_getD, List.getElem?_set_self h]
  rfl

lemma getD_append_left {α : Type} (l l2 : List α) (k : Nat) (d : α) (h : k < l.length) :
    (l ++ l2).getD k d = l.getD k d := by
  rw [List.getD_eq_getElem?_getD, List.getD_eq_getElem?_getD, List.getElem?_append_left h]

lemma getD_concat_self {α : Type} (l : List α) (x d : α) :
    (l ++ [x]).getD l.length d = x := by
  rw [List.getD_eq_getElem?_getD, List.getElem?_concat_length]
  rfl

lemma getD_beyond {α : Type} (l : List α) (k : Nat) (d : α) (h : l.length ≤ k) :
    l.getD k d = d := by
  rw [List.getD_eq_getElem?_getD, List.getElem?_eq_none h]
  rfl

lemma getD_add_read (cov : List Nat) (b e i : Nat) :
    (add_read cov b e).getD i 0 =
      cov.getD i 0 + (if b ≤ i ∧ i < e ∧ i < cov.length then 1 else 0) := by
  rw [List.getD_eq_getElem?_getD, List.getD_eq_getElem?_getD, getElem?_add_read]
  cases hc : cov[i]? with
  | none =>
    have : cov.length ≤ i := List.getElem?_eq_none_iff.1 hc
    rw [if_neg (by omega)]
    rfl
  | some c =>
    have hlt : i < cov.length := (List.getElem?_eq_some_iff.1 hc).1
    by_cases h : b ≤ i ∧ i < e
    · rw [if_pos ⟨h.1, h.2, hlt⟩]
      simp [h]
    · rw [if_neg (by tauto)]
      simp [h]

/-- Invariant of the `slice_reads` fragment loop: coverage vectors have one
entry per compressed position, each entry equals the number of fragments of
its slice covering that index, and no entry exceeds `maxCov`. -/
def SliceInv (maxCov : Nat) (plist : List Nat)
    (slices : List (List ReadVariantList)) (covs : List (List Nat)) : Prop :=
  covs.length = slices.length ∧ 0 < covs.length ∧
  (∀ (k : Nat) (cov : List Nat), covs[k]? = some cov → cov.length = plist.length) ∧
  (∀ k i, (covs.getD k []).getD i 0 = coverAt plist (slices.getD k []) i) ∧
  (∀ k i, (covs.getD k []).getD i 0 ≤ maxCov)

lemma getD_replicate_zero (n i : Nat) : (List.replicate n 0).getD i 0 = 0 := by
  rw [List.getD_eq_getElem?_getD, List.getElem?_replicate]
  by_cases h : i < n
  · rw [if_pos h]; rfl
  · rw [if_neg h]; rfl

lemma SliceInv_set (maxCov : Nat) (plist : List Nat)
    (slices : List (List ReadVariantList)) (covs : List (List Nat))
    (r : ReadVariantList) (b e k : Nat)
    (hInv : SliceInv maxCov plist slices covs)
    (hk : k < slices.length)
    (hfit : layerFits maxCov b e covs k)
    (hr : readInterval plist r = some (b, e))
    (he : e ≤ plist.length) :
    SliceInv maxCov plist (slices.set k (slices.getD k [] ++ [r]))
      (covs.set k (add_read (covs.getD k []) b e)) := by
  obtain ⟨hlen, hpos, hclen, hcover, hbound⟩ := hInv
  have hkc : k < covs.length := by omega
  obtain ⟨cov, hcov⟩ : ∃ cov, covs[k]? = some cov := by
    cases hc : covs[k]? with
    | none => have := List.getElem?_eq_none_iff.1 hc; omega
    | some c => exact ⟨c, rfl⟩
  have hgd : covs.getD k [] = cov := getD_of_getElem? hcov
  have hcovlen : cov.length = plist.length := hclen k cov hcov
  have hfit' : max_coverage_in_range cov b e < maxCov := by
    unfold layerFits at hfit
    rw [hgd] at hfit
    exact hfit
  refine ⟨by simp [hlen], by simpa using hpos, ?_, ?_, ?_⟩
  · intro k' cov' hc'
    by_cases hkk : k = k'
    · subst hkk
      rw [List.getElem?_set_self hkc] at hc'
      injection hc' with hc'
      rw [← hc', hgd, length_add_read]
      exact hcovlen
    · rw [List.getElem?_set_ne hkk] at hc'
      exact hclen k' cov' hc'
  · intro k' i
    by_cases hkk : k = k'
    · subst hkk
      rw [getD_set_self covs k _ [] hkc, getD_set_self slices k _ [] hk]
      rw [hgd, getD_add_read, coverAt_append_single]
      have hci := hcover k i
      rw [hgd] at hci
      rw [hci]
      by_cases hbe : b ≤ i ∧ i < e
      · rw [if_pos ⟨hbe.1, hbe.2, by omega⟩,
          if_pos ((coversIdx_of_interval plist r b e i hr).2 hbe)]
      · have : ¬ (b ≤ i ∧ i < e ∧ i < cov.length) := by tauto
        rw [if_neg this, if_neg (by
          intro h
          exact hbe ((coversIdx_of_interval plist r b e i hr).1 h))]
    · rw [getD_set_ne covs k k' _ [] hkk, getD_set_ne slices k k' _ [] hkk]
      exact hcover k' i
  · intro k' i
    by_cases hkk : k = k'
    · subst hkk
      rw [getD_set_self covs k _ [] hkc, hgd, getD_add_read]
      by_cases hbe : b ≤ i ∧ i < e ∧ i < cov.length
      · rw [if_pos hbe]
        have hlt : cov.getD i 0 < maxCov := by
          rcases max_coverage_in_range_lt cov b e maxCov |>.1 hfit' with ⟨_, hall⟩
          have hci : cov[i]? = some (cov.getD i 0) := by
            rw [List.getD_eq_getElem?_getD]
            cases hx : cov[i]? with
            | none => have := List.getElem?_eq_none_iff.1 hx; omega
            | some c => rfl
          exact hall i (cov.getD i 0) hbe.1 hbe.2.1 hci
        omega
      · rw [if_neg hbe]
        have := hbound k i
        rw [hgd] at this
        omega
    · rw [getD_set_ne covs k k' _ [] hkk]
      exact hbound k' i

lemma SliceInv_append (maxCov : Nat) (plist : List Nat)
    (slices : List (List ReadVariantList)) (covs : List (List Nat))
    (r : ReadVariantList) (b e : Nat)
    (hInv : SliceInv maxCov plist slices covs)
    (hmax : 0 < maxCov)
    (hr : readInterval plist r = some (b, e))
    (he : e ≤ plist.length) :
    SliceInv maxCov plist (slices ++ [[r]])
      (covs ++ [add_read (List.replicate plist.length 0) b e]) := by
  obtain ⟨hlen, hpos, hclen, hcover, hbound⟩ := hInv
  have hnew : ∀ i, (add_read (List.replicate plist.length 0) b e).getD i 0 =
      if coversIdx plist r i = true then 1 else 0 := by
    intro i
    rw [getD_add_read, getD_replicate_zero]
    by_cases hbe : b ≤ i ∧ i < e
    · rw [if_pos ⟨hbe.1, hbe.2, by simp; omega⟩,
        if_pos ((coversIdx_of_interval plist r b e i hr).2 hbe)]
    · have h1 : ¬ (b ≤ i ∧ i < e ∧ i < (List.replicate plist.length 0).length) := by tauto
      rw [if_neg h1, if_neg (by
        intro h
        exact hbe ((coversIdx_of_interval plist r b e i hr).1 h))]
  refine ⟨by simp [hlen], by simp, ?_, ?_, ?_⟩
  · intro k' cov' hc'
    rcases Nat.lt_trichotomy k' covs.length with hlt | heq | hgt
    · rw [List.getElem?_append_left hlt] at hc'
      exact hclen k' cov' hc'
    · subst heq
      rw [List.getElem?_concat_length] at hc'
      injection hc' with hc'
      rw [← hc', length_add_read]
      simp
    · rw [List.getElem?_eq_none (by simp; omega)] at hc'
      exact absurd hc' (by simp)
  · intro k' i
    rcases Nat.lt_trichotomy k' covs.length with hlt | heq | hgt
    · rw [getD_append_left covs _ k' [] hlt, getD_append_left slices _ k' [] (by omega)]
      exact hcover k' i
    · subst heq
      rw [getD_concat_self, hlen, getD_concat_self, hnew i]
      have : coverAt plist [r] i = if coversIdx plist r i = true then 1 else 0 := by
        have := coverAt_append_single plist [] r i
        simpa [coverAt] using this
      rw [this]
    · rw [getD_beyond _ k' [] (by simp; omega), getD_beyond _ k' [] (by simp; omega)]
      rfl
  · intro k' i
    rcases Nat.lt_trichotomy k' covs.length with hlt | heq | hgt
    · rw [getD_append_left covs _ k' [] hlt]
      exact hbound k' i
    · subst heq
      rw [getD_concat_self, hnew i]
      by_cases h : coversIdx plist r i = true
      · rw [if_pos h]; omega
      · rw [if_neg h]; omega
    · rw [getD_beyond _ k' [] (by simp; omega)]
      simp

lemma readInterval_parts (plist : List Nat) (r : ReadVariantList) (b e : Nat)
    (hr : readInterval plist r = some (b, e)) :
    ∃ v0 vl, r.variants.head? = some (some v0) ∧ r.variants.getLast? = some (some vl) ∧
      b = posIndex plist v0.position ∧ e = posIndex plist vl.position + 1 := by
  unfold readInterval at hr
  cases hh : r.variants.head? with
  | none => rw [hh] at hr; exact absurd hr (by simp)
  | some o1 =>
    cases o1 with
    | none => rw [hh] at hr; exact absurd hr (by simp)
    | some v0 =>
      cases hl : r.variants.getLast? with
      | none => rw [hh, hl] at hr; exact absurd hr (by simp)
      | some o2 =>
        cases o2 with
        | none => rw [hh, hl] at hr; exact absurd hr (by simp)
        | some vl =>
          rw [hh, hl] at hr
          dsimp only at hr
          injection hr with hr
          injection hr with h1 h2
          exact ⟨v0, vl, rfl, rfl, h1.symm, h2.symm⟩

lemma head_mem_nonSentinel (r : ReadVariantList) (v : ReadVariant)
    (h : r.variants.head? = some (some v)) : v ∈ nonSentinel r := by
  have : some v ∈ r.variants := List.mem_of_mem_head? (by rw [h]; rfl)
  exact List.mem_filterMap.2 ⟨some v, this, rfl⟩

lemma getLast_mem_nonSentinel (r : ReadVariantList) (v : ReadVariant)
    (h : r.variants.getLast? = some (some v)) : v ∈ nonSentinel r := by
  have : some v ∈ r.variants := List.mem_of_getLast?_eq_some h
  exact List.mem_filterMap.2 ⟨some v, this, rfl⟩

lemma posIndex_le_of_le (l : List Nat) (hs : l.Pairwise (· < ·)) (p q : Nat)
    (hp : p ∈ l) (hq : q ∈ l) (hpq : p ≤ q) : posIndex l p ≤ posIndex l q := by
  rcases Nat.eq_or_lt_of_le hpq with rfl | hlt
  · exact le_refl _
  · exact le_of_lt (posIndex_strict_mono l hs p q hp hq hlt)

lemma pairwise_position_list (reads : List ReadVariantList) :
    (position_list reads).Pairwise (· < ·) :=
  List.chain'_iff_pairwise.1 (sorted_position_list reads)

lemma mem_allPositions (reads : List ReadVariantList) (r : ReadVariantList)
    (v : ReadVariant) (hr : r ∈ reads) (hv : v ∈ nonSentinel r) :
    v.position ∈ allPositions reads := by
  unfold allPositions
  rw [List.mem_flatMap]
  exact ⟨r, hr, List.mem_map.2 ⟨v, hv, rfl⟩⟩

lemma sliceGo_coverage (maxCov : Nat) (plist : List Nat) (hmax : 0 < maxCov) :
    ∀ (reads : List ReadVariantList) (slices : List (List ReadVariantList))
      (covs : List (List Nat)) (out : List (List ReadVariantList)),
      SliceInv maxCov plist slices covs →
      (∀ r ∈ reads, ∀ v ∈ nonSentinel r, v.position ∈ plist) →
      sliceGo maxCov plist reads slices covs = some out →
      ∀ sl ∈ out, ∀ i, coverAt plist sl i ≤ maxCov := by
  intro reads
  induction reads with
  | nil =>
    intro slices covs out hInv hmem h
    unfold sliceGo at h
    injection h with h
    subst h
    intro sl hsl i
    obtain ⟨sl', hsl', rfl⟩ := List.mem_map.1 hsl
    rw [coverAt_perm plist (sortSlice_perm sl') i]
    obtain ⟨k, hk⟩ := List.mem_iff_getElem?.1 hsl'
    have hg : slices.getD k [] = sl' := getD_of_getElem? hk
    rw [← hg]
    obtain ⟨_, _, _, hcover, hbound⟩ := hInv
    rw [← hcover k i]
    exact hbound k i
  | cons r rest ih =>
    intro slices covs out hInv hmem h
    unfold sliceGo at h
    by_cases hshort : r.variants.length < 2
    · rw [if_pos hshort] at h
      exact ih slices covs out hInv (fun r' hr' => hmem r' (by simp [hr'])) h
    · rw [if_neg hshort] at h
      cases hri : readInterval plist r with
      | none => rw [hri] at h; exact absurd h (by simp)
      | some be =>
        obtain ⟨b, e⟩ := be
        rw [hri] at h
        dsimp only at h
        by_cases hbe : b < e
        · rw [if_pos hbe] at h
          obtain ⟨v0, vl, hh, hl, hb, hev⟩ := readInterval_parts plist r b e hri
          have he : e ≤ plist.length := by
            have hmemv : vl.position ∈ plist :=
              hmem r (by simp) vl (getLast_mem_nonSentinel r vl hl)
            have := posIndex_lt_length plist vl.position hmemv
            omega
          cases hpl : placeLoop maxCov b e plist.length r (slices.length + 2) slices covs 0 with
          | none => rw [hpl] at h; exact absurd h (by simp)
          | some sc =>
            rw [hpl] at h
            dsimp only at h
            have hlen := hInv.1
            have hposlen : 0 < slices.length := by
              have := hInv.2.1
              omega
            rcases placeLoop_spec maxCov b e plist.length r hmax (slices.length + 2) 0
                slices covs hlen hposlen (by omega) (by omega) with
              ⟨k, _, hk2, hk3, _, hk5⟩ | ⟨_, hk5⟩
            · rw [hk5] at hpl
              injection hpl with hpl
              subst hpl
              exact ih _ _ out
                (SliceInv_set maxCov plist slices covs r b e k hInv hk2 hk3 hri he)
                (fun r' hr' => hmem r' (by simp [hr'])) h
            · rw [hk5] at hpl
              injection hpl with hpl
              subst hpl
              exact ih _ _ out
                (SliceInv_append maxCov plist slices covs r b e hInv hmax hri he)
                (fun r' hr' => hmem r' (by simp [hr'])) h
        · rw [if_neg hbe] at h
          exact absurd h (by simp)

/-- C3: whenever `slice_reads` returns, (1) in every returned slice, at
every compressed variant index, the number of fragments whose interval
covers the index is at most `max_coverage`; (2) the layer-search loop puts
a fragment into the lowest-indexed layer whose maximum coverage over the
fragment's interval is strictly below `max_coverage`, and creates a fresh
layer exactly when no existing layer qualifies. -/
theorem slice_reads_respects_max_coverage (reads : List ReadVariantList)
    (maxCov : Nat) (slices : List (List ReadVariantList))
    (hmax : 1 ≤ maxCov) (h : slice_reads reads maxCov = some slices) :
    (∀ sl ∈ slices, ∀ i, coverAt (position_list reads) sl i ≤ maxCov) ∧
    (∀ (b e V : Nat) (r : ReadVariantList) (slicesSt : List (List ReadVariantList))
        (covsSt : List (List Nat)) (out : List (List ReadVariantList) × List (List Nat)),
      covsSt.length = slicesSt.length → 0 < slicesSt.length →
      placeLoop maxCov b e V r (slicesSt.length + 2) slicesSt covsSt 0 = some out →
      ∃ k, k ≤ slicesSt.length ∧ (∀ j, j < k → ¬ layerFits maxCov b e covsSt j) ∧
        ((k < slicesSt.length ∧ layerFits maxCov b e covsSt k ∧
            out.1 = slicesSt.set k (slicesSt.getD k [] ++ [r])) ∨
         (k = slicesSt.length ∧ out.1 = slicesSt ++ [[r]]))) := by
  constructor
  · have hInv0 : SliceInv maxCov (position_list reads) [[]]
        [List.replicate (position_list reads).length 0] := by
      refine ⟨rfl, by simp, ?_, ?_, ?_⟩
      · intro k cov hc
        cases k with
        | zero => injection hc with hc; rw [← hc]; simp
        | succ k => exact absurd hc (by simp)
      · intro k i
        cases k with
        | zero =>
          show (List.replicate (position_list reads).length 0).getD i 0 = _
          rw [getD_replicate_zero]
          rfl
        | succ k => rfl
      · intro k i
        cases k with
        | zero =>
          show (List.replicate (position_list reads).length 0).getD i 0 ≤ maxCov
          rw [getD_replicate_zero]
          omega
        | succ k =>
          show (([] : List Nat)).getD i 0 ≤ maxCov
          simp
    exact sliceGo_coverage maxCov (position_list reads) (by omega) reads [[]]
      [List.replicate (position_list reads).length 0] slices hInv0
      (fun r hr v hv => (mem_position_list reads v.position).2
        (mem_allPositions reads r v hr hv)) h
  · intro b e V r slicesSt covsSt out hlen hpos hpl
    rcases placeLoop_spec maxCov b e V r (by omega) (slicesSt.length + 2) 0
        slicesSt covsSt hlen hpos (by omega) (by omega) with
      ⟨k, _, hk2, hk3, hk4, hk5⟩ | ⟨hall, hk5⟩
    · rw [hk5] at hpl
      injection hpl with hpl
      subst hpl
      exact ⟨k, by omega, hk4, Or.inl ⟨hk2, hk3, rfl⟩⟩
    · rw [hk5] at hpl
      injection hpl with hpl
      subst hpl
      exact ⟨slicesSt.length, le_refl _, fun j hj => hall j hj, Or.inr ⟨rfl, rfl⟩⟩

def witReadC3a : ReadVariantList :=
  { name := "c1", mapq := .single 50,
    variants := [some ⟨10, ['A'], '0', 5⟩, some ⟨20, ['C'], '1', 5⟩] }

def witReadC3b : ReadVariantList :=
  { name := "c2", mapq := .single 50,
    variants := [some ⟨20, ['G'], '0', 5⟩, some ⟨30, ['T'], '1', 5⟩] }

theorem slice_reads_respects_max_coverage_witness :
    (∃ slices, slice_reads [witReadC3a, witReadC3b] 1 = some slices ∧
      (∀ sl ∈ slices, ∀ i, coverAt (position_list [witReadC3a, witReadC3b]) sl i ≤ 1)) := by
  have h : slice_reads [witReadC3a, witReadC3b] 1 = some [[witReadC3a], [witReadC3b]] := by
    decide
  exact ⟨[[witReadC3a], [witReadC3b]], h,
    (slice_reads_respects_max_coverage [witReadC3a, witReadC3b] 1 _ (by omega) h).1⟩

/-- A fragment whose first and last entries are non-sentinel observations in
non-decreasing position order (the shape every fragment reaching the layer
search has in the pipeline: the Read Assembler emits position-sorted mates
and the merge keeps a non-empty mate on each side of the sentinel). -/
def validEndsB (r : ReadVariantList) : Bool :=
  match r.variants.head?, r.variants.getLast? with
  | some (some v0), some (some vl) => decide (v0.position ≤ vl.position)
  | _, _ => false

lemma validEndsB_parts (r : ReadVariantList) (h : validEndsB r = true) :
    ∃ v0 vl, r.variants.head? = some (some v0) ∧ r.variants.getLast? = some (some vl) ∧
      v0.position ≤ vl.position := by
  unfold validEndsB at h
  cases hh : r.variants.head? with
  | none => rw [hh] at h; exact absurd h (by simp)
  | some o1 =>
    cases o1 with
    | none => rw [hh] at h; exact absurd h (by simp)
    | some v0 =>
      cases hl : r.variants.getLast? with
      | none => rw [hh, hl] at h; exact absurd h (by simp)
      | some o2 =>
        cases o2 with
        | none => rw [hh, hl] at h; exact absurd h (by simp)
        | some vl =>
          rw [hh, hl] at h
          exact ⟨v0, vl, rfl, rfl, by simpa using h⟩

lemma readInterval_of_parts (plist : List Nat) (r : ReadVariantList)
    (v0 vl : ReadVariant) (hh : r.variants.head? = some (some v0))
    (hl : r.variants.getLast? = some (some vl)) :
    readInterval plist r =
      some (posIndex plist v0.position, posIndex plist vl.position + 1) := by
  unfold readInterval
  rw [hh, hl]

lemma placeLoop_zero (b e V : Nat) (r : ReadVariantList) :
    ∀ (fuel : Nat) (slices : List (List ReadVariantList)) (covs : List (List Nat))
      (sid : Nat), placeLoop 0 b e V r fuel slices covs sid = none := by
  intro fuel
  induction fuel with
  | zero => intro slices covs sid; rfl
  | succ fuel ih =>
    intro slices covs sid
    unfold placeLoop
    cases hc : covs[sid]? with
    | none => rfl
    | some cov =>
      dsimp only
      rw [if_neg (by omega)]
      by_cases happ : sid + 1 = slices.length
      · rw [if_pos happ]; exact ih _ _ _
      · rw [if_neg happ]; exact ih _ _ _

lemma sliceGo_total (maxCov : Nat) (plist : List Nat) (hmax : 0 < maxCov)
    (hpw : plist.Pairwise (· < ·)) :
    ∀ (reads : List ReadVariantList) (slices : List (List ReadVariantList))
      (covs : List (List Nat)),
      covs.length = slices.length → 0 < slices.length →
      (∀ r ∈ reads, ∀ v ∈ nonSentinel r, v.position ∈ plist) →
      (∀ r ∈ reads, 2 ≤ r.variants.length → validEndsB r = true) →
      ∃ out, sliceGo maxCov plist reads slices covs = some out ∧ out ≠ [] := by
  intro reads
  induction reads with
  | nil =>
    intro slices covs hlen hpos _ _
    refine ⟨slices.map sortSlice, rfl, ?_⟩
    intro hc
    have hlen2 : slices.length = 0 := by simpa using congrArg List.length hc
    omega
  | cons r rest ih =>
    intro slices covs hlen hpos hmem hval
    unfold sliceGo
    by_cases hshort : r.variants.length < 2
    · rw [if_pos hshort]
      exact ih slices covs hlen hpos (fun r' hr' => hmem r' (by simp [hr']))
        (fun r' hr' => hval r' (by simp [hr']))
    · rw [if_neg hshort]
      obtain ⟨v0, vl, hh, hl, hple⟩ := validEndsB_parts r (hval r (by simp) (by omega))
      rw [readInterval_of_parts plist r v0 vl hh hl]
      dsimp only
      have hri := readInterval_of_parts plist r v0 vl hh hl
      have hm0 : v0.position ∈ plist := hmem r (by simp) v0 (head_mem_nonSentinel r v0 hh)
      have hml : vl.position ∈ plist := hmem r (by simp) vl (getLast_mem_nonSentinel r vl hl)
      have hbe : posIndex plist v0.position < posIndex plist vl.position + 1 := by
        have := posIndex_le_of_le plist hpw v0.position vl.position hm0 hml hple
        omega
      rw [if_pos hbe]
      rcases placeLoop_spec maxCov (posIndex plist v0.position)
          (posIndex plist vl.position + 1) plist.length r hmax (slices.length + 2) 0
          slices covs hlen hpos (by omega) (by omega) with
        ⟨k, _, hk2, _, _, hk5⟩ | ⟨_, hk5⟩
      · rw [hk5]
        dsimp only
        exact ih _ _ (by simp [hlen]) (by simpa using hpos)
          (fun r' hr' => hmem r' (by simp [hr']))
          (fun r' hr' => hval r' (by simp [hr']))
      · rw [hk5]
        dsimp only
        exact ih _ _ (by simp [hlen]) (by simp)
          (fun r' hr' => hmem r' (by simp [hr']))
          (fun r' hr' => hval r' (by simp [hr']))

lemma sliceGo_zero_diverges (plist : List Nat) (hpw : plist.Pairwise (· < ·)) :
    ∀ (reads : List ReadVariantList) (slices : List (List ReadVariantList))
      (covs : List (List Nat)),
      (∀ r ∈ reads, ∀ v ∈ nonSentinel r, v.position ∈ plist) →
      (∀ r ∈ reads, 2 ≤ r.variants.length → validEndsB r = true) →
      (∃ r ∈ reads, 2 ≤ r.variants.length) →
      sliceGo 0 plist reads slices covs = none := by
  intro reads
  induction reads with
  | nil => intro slices covs _ _ hex; simp at hex
  | cons r rest ih =>
    intro slices covs hmem hval hex
    unfold sliceGo
    by_cases hshort : r.variants.length < 2
    · rw [if_pos hshort]
      rcases hex with ⟨r', hr', hlen'⟩
      rcases List.mem_cons.1 hr' with rfl | hmem'
      · omega
      · exact ih slices covs (fun x hx => hmem x (by simp [hx]))
          (fun x hx => hval x (by simp [hx])) ⟨r', hmem', hlen'⟩
    · rw [if_neg hshort]
      obtain ⟨v0, vl, hh, hl, hple⟩ := validEndsB_parts r (hval r (by simp) (by omega))
      rw [readInterval_of_parts plist r v0 vl hh hl]
      dsimp only
      have hm0 : v0.position ∈ plist := hmem r (by simp) v0 (head_mem_nonSentinel r v0 hh)
      have hml : vl.position ∈ plist := hmem r (by simp) vl (getLast_mem_nonSentinel r vl hl)
      have hbe : posIndex plist v0.position < posIndex plist vl.position + 1 := by
        have := posIndex_le_of_le plist hpw v0.position vl.position hm0 hml hple
        omega
      rw [if_pos hbe, placeLoop_zero]

/-- C10: with `max_coverage ≥ 1` (and pipeline-shaped fragments: non-
sentinel ends in non-decreasing position order), `slice_reads` terminates
with a non-empty slice list — even on empty input — so `slice_reads(...)[0]`
in `main` is always well-defined; and the precondition is necessary: with
`max_coverage = 0` the layer search never succeeds for any fragment listing
at least two observations, and the loop runs forever (modelled as `none`). -/
theorem slice_reads_total_and_nonempty :
    (∀ (reads : List ReadVariantList) (maxCov : Nat), 1 ≤ maxCov →
      (∀ r ∈ reads, 2 ≤ r.variants.length → validEndsB r = true) →
      ∃ slices, slice_reads reads maxCov = some slices ∧ slices ≠ []) ∧
    (∀ reads : List ReadVariantList,
      (∀ r ∈ reads, 2 ≤ r.variants.length → validEndsB r = true) →
      (∃ r ∈ reads, 2 ≤ r.variants.length) →
      slice_reads reads 0 = none) := by
  constructor
  · intro reads maxCov hmax hval
    exact sliceGo_total maxCov (position_list reads) (by omega)
      (pairwise_position_list reads) reads [[]]
      [List.replicate (position_list reads).length 0] rfl (by simp)
      (fun r hr v hv => (mem_position_list reads v.position).2
        (mem_allPositions reads r v hr hv)) hval
  · intro reads hval hex
    exact sliceGo_zero_diverges (position_list reads) (pairwise_position_list reads)
      reads [[]] [List.replicate (position_list reads).length 0]
      (fun r hr v hv => (mem_position_list reads v.position).2
        (mem_allPositions reads r v hr hv)) hval hex

theorem slice_reads_total_and_nonempty_witness :
    (∃ slices, slice_reads [witReadC3a] 1 = some slices ∧ slices ≠ []) ∧
    slice_reads [witReadC3a] 0 = none := by
  constructor
  · exact slice_reads_total_and_nonempty.1 [witReadC3a] 1 (by omega) (by decide)
  · exact slice_reads_total_and_nonempty.2 [witReadC3a] (by decide)
      ⟨witReadC3a, by decide, by decide⟩

/-! ## ComponentFinder (union-find, scripts/whatshap.py lines 347-406)

The `Node` objects are identified by their (distinct) values, so the
mutable parent pointers are modelled as a function `Nat → Option Nat`
(`none` = no parent, i.e. a root). `ComponentFinder(values)` makes every
node parentless; the Python dict restricts the domain to `values`, which
the theorems mirror through hypotheses keeping every accessed key inside
`values`. The loops are fuel-based: all parent chains the class ever
builds strictly decrease in value (the larger root is pointed at the
smaller), so `x + 1` steps always suffice starting from node `x`. -/

def CF : Type := Nat → Option Nat

def cfInit : CF := fun _ => none

/-- First loop of `_find_node`: chase parent pointers to the root. -/
def findRootFuel (f : CF) : Nat → Nat → Nat
  | 0, x => x
  | fuel + 1, x =>
    match f x with
    | none => x
    | some q => findRootFuel f fuel q

def rootOf (f : CF) (x : Nat) : Nat := findRootFuel f (x + 1) x

/-- Second loop of `_find_node` (path compression): re-parent each node on
the path from `x` directly to `root`, reading each old parent before
overwriting it (`node.parent, node = root, node.parent`). -/
def compressFuel (root : Nat) : CF → Nat → Nat → CF
  | f, 0, _ => f
  | f, fuel + 1, x =>
    match f x with
    | none => f
    | some q => compressFuel root (fun y => if y = x then some root else f y) fuel q

/-- `_find_node(x)`: the root node (returned by value) and the compressed
parent map. -/
def findNode (f : CF) (x : Nat) : Nat × CF :=
  (rootOf f x, compressFuel (rootOf f x) f (x + 1) x)

/-- `find(x)`: the component representative's value. -/
def cfFind (f : CF) (x : Nat) : Nat := (findNode f x).1

/-- `merge(x, y)`; `none` models the failing `assert x != y`. Both
`_find_node` calls compress; then the root with the larger value is
pointed at the root with the smaller value. -/
def cfMerge (f : CF) (x y : Nat) : Option CF :=
  if x = y then none
  else
    let n1 := findNode f x
    let n2 := findNode n1.2 y
    if n1.1 = n2.1 then some n2.2
    else if n1.1 < n2.1 then some (fun z => if z = n2.1 then some n1.1 else n2.2 z)
    else some (fun z => if z = n1.1 then some n2.1 else n2.2 z)

def applyMerges : CF → List (Nat × Nat) → Option CF
  | f, [] => some f
  | f, (x, y) :: rest =>
    match cfMerge f x y with
    | none => none
    | some f2 => applyMerges f2 rest

/-- Structural invariant: every parent has a strictly smaller value. -/
def Decr (f : CF) : Prop := ∀ x q, f x = some q → q < x

lemma findRootFuel_eq_rootOf (f : CF) (hd : Decr f) :
    ∀ x fuel, x < fuel → findRootFuel f fuel x = rootOf f x := by
  intro x
  induction x using Nat.strong_induction_on with
  | _ x ih =>
    intro fuel hx
    obtain ⟨fuel2, rfl⟩ : ∃ g, fuel = g + 1 := ⟨fuel - 1, by omega⟩
    show findRootFuel f (fuel2 + 1) x = findRootFuel f (x + 1) x
    unfold findRootFuel
    cases hfx : f x with
    | none => rfl
    | some q =>
      have hq : q < x := hd x q hfx
      dsimp only
      rw [ih q hq fuel2 (by omega), ih q hq x (by omega)]

lemma rootOf_root (f : CF) (x : Nat) (h : f x = none) : rootOf f x = x := by
  unfold rootOf findRootFuel
  rw [h]

lemma rootOf_step (f : CF) (hd : Decr f) (x q : Nat) (h : f x = some q) :
    rootOf f x = rootOf f q := by
  show findRootFuel f (x + 1) x = _
  unfold findRootFuel
  rw [h]
  exact findRootFuel_eq_rootOf f hd q x (hd x q h)

lemma rootOf_le (f : CF) (hd : Decr f) : ∀ x, rootOf f x ≤ x := by
  intro x
  induction x using Nat.strong_induction_on with
  | _ x ih =>
    cases hfx : f x with
    | none => rw [rootOf_root f x hfx]
    | some q =>
      have hq : q < x := hd x q hfx
      rw [rootOf_step f hd x q hfx]
      have := ih q hq
      omega

lemma rootOf_isRoot (f : CF) (hd : Decr f) : ∀ x, f (rootOf f x) = none := by
  intro x
  induction x using Nat.strong_induction_on with
  | _ x ih =>
    cases hfx : f x with
    | none => rw [rootOf_root f x hfx]; exact hfx
    | some q => rw [rootOf_step f hd x q hfx]; exact ih q (hd x q hfx)

lemma rootOf_idem (f : CF) (hd : Decr f) (x : Nat) :
    rootOf f (rootOf f x) = rootOf f x :=
  rootOf_root f _ (rootOf_isRoot f hd x)

lemma update_nonroot (f : CF) (hd : Decr f) (x q root : Nat)
    (hfx : f x = some q) (hroot : rootOf f x = root) :
    Decr (fun y => if y = x then some root else f y) ∧
      ∀ z, rootOf (fun y => if y = x then some root else f y) z = rootOf f z := by
  have hq : q < x := hd x q hfx
  have hrx : root < x := by
    have h1 : rootOf f x = rootOf f q := rootOf_step f hd x q hfx
    have h2 : rootOf f q ≤ q := rootOf_le f hd q
    omega
  have hdec : Decr (fun y => if y = x then some root else f y) := by
    intro y r hy
    dsimp only at hy
    by_cases hyx : y = x
    · rw [if_pos hyx] at hy
      injection hy with hy
      omega
    · rw [if_neg hyx] at hy
      exact hd y r hy
  refine ⟨hdec, ?_⟩
  intro z
  induction z using Nat.strong_induction_on with
  | _ z ih =>
    by_cases hzx : z = x
    · subst hzx
      have hstep : rootOf (fun y => if y = z then some root else f y) z =
          rootOf (fun y => if y = z then some root else f y) root :=
        rootOf_step _ hdec z root (by rw [if_pos rfl])
      rw [hstep]
      have hrootroot : f root = none := by
        rw [← hroot]
        exact rootOf_isRoot f hd z
      have : rootOf (fun y => if y = z then some root else f y) root = root :=
        rootOf_root _ root (by rw [if_neg (by omega)]; exact hrootroot)
      rw [this, hroot]
    · cases hfz : f z with
      | none =>
        rw [rootOf_root f z hfz, rootOf_root _ z (by rw [if_neg hzx]; exact hfz)]
      | some w =>
        have hw : w < z := hd z w hfz
        rw [rootOf_step f hd z w hfz,
          rootOf_step _ hdec z w (by rw [if_neg hzx]; exact hfz)]
        exact ih w hw

lemma compress_preserves (root : Nat) :
    ∀ (fuel : Nat) (f : CF) (x : Nat), Decr f → rootOf f x = root →
      Decr (compressFuel root f fuel x) ∧
        ∀ z, rootOf (compressFuel root f fuel x) z = rootOf f z := by
  intro fuel
  induction fuel with
  | zero => intro f x hd _; exact ⟨hd, fun z => rfl⟩
  | succ fuel ih =>
    intro f x hd hroot
    unfold compressFuel
    cases hfx : f x with
    | none => exact ⟨hd, fun z => rfl⟩
    | some q =>
      obtain ⟨hdec, hpres⟩ := update_nonroot f hd x q root hfx hroot
      have hrootq : rootOf (fun y => if y = x then some root else f y) q = root := by
        rw [hpres q, ← rootOf_step f hd x q hfx, hroot]
      obtain ⟨hdec2, hpres2⟩ := ih (fun y => if y = x then some root else f y) q hdec hrootq
      refine ⟨hdec2, ?_⟩
      intro z
      rw [hpres2 z, hpres z]

lemma findNode_fst (f : CF) (x : Nat) : (findNode f x).1 = rootOf f x := rfl

lemma findNode_snd (f : CF) (hd : Decr f) (x : Nat) :
    Decr (findNode f x).2 ∧ ∀ z, rootOf (findNode f x).2 z = rootOf f z :=
  compress_preserves (rootOf f x) (x + 1) f x hd rfl

lemma link_roots (f : CF) (hd : Decr f) (a bb : Nat)
    (ha : f a = none) (hb : f bb = none) (hab : a < bb) :
    Decr (fun z => if z = bb then some a else f z) ∧
      ∀ z, rootOf (fun z => if z = bb then some a else f z) z =
        if rootOf f z = bb then a else rootOf f z := by
  have hdec : Decr (fun z => if z = bb then some a else f z) := by
    intro y r hy
    dsimp only at hy
    by_cases hyb : y = bb
    · rw [if_pos hyb] at hy
      injection hy with hy
      omega
    · rw [if_neg hyb] at hy
      exact hd y r hy
  refine ⟨hdec, ?_⟩
  intro z
  induction z using Nat.strong_induction_on with
  | _ z ih =>
    by_cases hzb : z = bb
    · subst hzb
      have h1 : rootOf (fun w => if w = z then some a else f w) z =
          rootOf (fun w => if w = z then some a else f w) a :=
        rootOf_step _ hdec z a (by rw [if_pos rfl])
      have h2 : rootOf (fun w => if w = z then some a else f w) a = a :=
        rootOf_root _ a (by rw [if_neg (by omega)]; exact ha)
      rw [h1, h2, rootOf_root f z hb, if_pos rfl]
    · cases hfz : f z with
      | none =>
        rw [rootOf_root f z hfz, rootOf_root _ z (by rw [if_neg hzb]; exact hfz),
          if_neg hzb]
      | some w =>
        have hw : w < z := hd z w hfz
        rw [rootOf_step f hd z w hfz,
          rootOf_step _ hdec z w (by rw [if_neg hzb]; exact hfz)]
        exact ih w hw

lemma cfMerge_characterization (f : CF) (hd : Decr f) (x y : Nat) (f2 : CF)
    (hm : cfMerge f x y = some f2) :
    Decr f2 ∧ ∀ z, rootOf f2 z =
      if rootOf f z = rootOf f x ∨ rootOf f z = rootOf f y
      then min (rootOf f x) (rootOf f y) else rootOf f z := by
  unfold cfMerge at hm
  by_cases hxy : x = y
  · rw [if_pos hxy] at hm
    exact absurd hm (by simp)
  · rw [if_neg hxy] at hm
    dsimp only at hm
    obtain ⟨hd1, hp1⟩ := findNode_snd f hd x
    obtain ⟨hd2, hp2⟩ := findNode_snd (findNode f x).2 hd1 y
    have hr2 : ∀ z, rootOf (findNode (findNode f x).2 y).2 z = rootOf f z := by
      intro z
      rw [hp2 z, hp1 z]
    have hrx : rootOf (findNode f x).2 y = rootOf f y := hp1 y
    simp only [findNode_fst] at hm
    rw [hrx] at hm
    have hrootx : (findNode (findNode f x).2 y).2 (rootOf f x) = none := by
      have h1 : rootOf (findNode (findNode f x).2 y).2 x = rootOf f x := hr2 x
      have := rootOf_isRoot (findNode (findNode f x).2 y).2 hd2 x
      rw [h1] at this
      exact this
    have hrooty : (findNode (findNode f x).2 y).2 (rootOf f y) = none := by
      have h1 : rootOf (findNode (findNode f x).2 y).2 y = rootOf f y := hr2 y
      have := rootOf_isRoot (findNode (findNode f x).2 y).2 hd2 y
      rw [h1] at this
      exact this
    by_cases heq : rootOf f x = rootOf f y
    · rw [if_pos heq] at hm
      injection hm with hm
      subst hm
      refine ⟨hd2, ?_⟩
      intro z
      rw [hr2 z]
      by_cases hz : rootOf f z = rootOf f x ∨ rootOf f z = rootOf f y
      · rw [if_pos hz, heq]
        simp only [min_self]
        rcases hz with h | h
        · rw [h, heq]
        · rw [h]
      · rw [if_neg hz]
    · rw [if_neg heq] at hm
      by_cases hlt : rootOf f x < rootOf f y
      · rw [if_pos hlt] at hm
        injection hm with hm
        subst hm
        obtain ⟨hd3, hp3⟩ :=
          link_roots (findNode (findNode f x).2 y).2 hd2 (rootOf f x) (rootOf f y)
            hrootx hrooty hlt
        refine ⟨hd3, ?_⟩
        intro z
        rw [hp3 z, hr2 z]
        by_cases hz : rootOf f z = rootOf f x ∨ rootOf f z = rootOf f y
        · rw [if_pos hz, min_eq_left (le_of_lt hlt)]
          rcases hz with h | h
          · rw [if_neg (by omega), h]
          · rw [if_pos h]
        · rw [if_neg hz, if_neg (by tauto)]
      · have hgt : rootOf f y < rootOf f x := by omega
        rw [if_neg hlt] at hm
        injection hm with hm
        subst hm
        obtain ⟨hd3, hp3⟩ :=
          link_roots (findNode (findNode f x).2 y).2 hd2 (rootOf f y) (rootOf f x)
            hrooty hrootx hgt
        refine ⟨hd3, ?_⟩
        intro z
        rw [hp3 z, hr2 z]
        by_cases hz : rootOf f z = rootOf f x ∨ rootOf f z = rootOf f y
        · rw [if_pos hz, min_eq_right (le_of_lt hgt)]
          rcases hz with h | h
          · rw [if_pos h]
          · rw [if_neg (by omega), h]
        · rw [if_neg hz, if_neg (by tauto)]

/-- The generating relation of a merge list: `a` was merged with `b`. -/
def pairRel (ms : List (Nat × Nat)) (a b : Nat) : Prop := (a, b) ∈ ms

/-- The connected component of `x` induced by the merge operations: the
equivalence closure of the merged pairs. -/
def mergeClass (ms : List (Nat × Nat)) (x : Nat) : Set Nat :=
  {y | Relation.EqvGen (pairRel ms) x y}

lemma eqvGen_nil (a b : Nat) (h : Relation.EqvGen (pairRel []) a b) : a = b := by
  induction h with
  | rel a b hr => exact absurd hr (by simp [pairRel])
  | refl a => rfl
  | symm a b _ ih => exact ih.symm
  | trans a b c _ _ ih1 ih2 => exact ih1.trans ih2

lemma eqvGen_append_pair (ms : List (Nat × Nat)) (x y : Nat) (a b : Nat) :
    Relation.EqvGen (pairRel (ms ++ [(x, y)])) a b ↔
      Relation.EqvGen (pairRel ms) a b ∨
      (Relation.EqvGen (pairRel ms) a x ∧ Relation.EqvGen (pairRel ms) y b) ∨
      (Relation.EqvGen (pairRel ms) a y ∧ Relation.EqvGen (pairRel ms) x b) := by
  constructor
  · intro h
    induction h with
    | rel a b hr =>
      rcases List.mem_append.1 hr with hmm | hmm
      · exact Or.inl (Relation.EqvGen.rel a b hmm)
      · simp at hmm
        obtain ⟨rfl, rfl⟩ := hmm
        exact Or.inr (Or.inl ⟨Relation.EqvGen.refl a, Relation.EqvGen.refl b⟩)
    | refl a => exact Or.inl (Relation.EqvGen.refl a)
    | symm a b _ ih =>
      rcases ih with h1 | ⟨h1, h2⟩ | ⟨h1, h2⟩
      · exact Or.inl (Relation.EqvGen.symm a b h1)
      · exact Or.inr (Or.inr ⟨Relation.EqvGen.symm _ _ h2, Relation.EqvGen.symm _ _ h1⟩)
      · exact Or.inr (Or.inl ⟨Relation.EqvGen.symm _ _ h2, Relation.EqvGen.symm _ _ h1⟩)
    | trans a b c _ _ ih1 ih2 =>
      rcases ih1 with g1 | ⟨g1, g2⟩ | ⟨g1, g2⟩ <;>
        rcases ih2 with k1 | ⟨k1, k2⟩ | ⟨k1, k2⟩
      · exact Or.inl (Relation.EqvGen.trans _ _ _ g1 k1)
      · exact Or.inr (Or.inl ⟨Relation.EqvGen.trans _ _ _ g1 k1, k2⟩)
      · exact Or.inr (Or.inr ⟨Relation.EqvGen.trans _ _ _ g1 k1, k2⟩)
      · exact Or.inr (Or.inl ⟨g1, Relation.EqvGen.trans _ _ _ g2 k1⟩)
      · exact Or.inl (Relation.EqvGen.trans _ _ _ g1
          (Relation.EqvGen.trans _ _ _ (Relation.EqvGen.symm _ _
            (Relation.EqvGen.trans _ _ _ g2 k1)) k2))
      · exact Or.inl (Relation.EqvGen.trans _ _ _ g1 k2)
      · exact Or.inr (Or.inr ⟨g1, Relation.EqvGen.trans _ _ _ g2 k1⟩)
      · exact Or.inl (Relation.EqvGen.trans _ _ _ g1 k2)
      · exact Or.inl (Relation.EqvGen.trans _ _ _ g1
          (Relation.EqvGen.trans _ _ _ (Relation.EqvGen.symm _ _
            (Relation.EqvGen.trans _ _ _ g2 k1)) k2))
  · intro h
    have hmono : ∀ c d, Relation.EqvGen (pairRel ms) c d →
        Relation.EqvGen (pairRel (ms ++ [(x, y)])) c d := by
      intro c d hcd
      exact Relation.EqvGen.mono (fun c d hr => by
        exact List.mem_append.2 (Or.inl hr)) hcd
    have hxy : Relation.EqvGen (pairRel (ms ++ [(x, y)])) x y :=
      Relation.EqvGen.rel x y (List.mem_append.2 (Or.inr (by simp)))
    rcases h with h1 | ⟨h1, h2⟩ | ⟨h1, h2⟩
    · exact hmono _ _ h1
    · exact Relation.EqvGen.trans _ _ _ (hmono _ _ h1)
        (Relation.EqvGen.trans _ _ _ hxy (hmono _ _ h2))
    · exact Relation.EqvGen.trans _ _ _ (hmono _ _ h1)
        (Relation.EqvGen.trans _ _ _ (Relation.EqvGen.symm _ _ hxy) (hmono _ _ h2))

lemma isLeast_congr {S T : Set Nat} (h : ∀ w, w ∈ S ↔ w ∈ T) {a : Nat}
    (hS : IsLeast S a) : IsLeast T a :=
  ⟨(h a).1 hS.1, fun w hw => hS.2 ((h w).2 hw)⟩

lemma isLeast_union_min {S T : Set Nat} {a b : Nat}
    (hS : IsLeast S a) (hT : IsLeast T b) : IsLeast (S ∪ T) (min a b) := by
  constructor
  · rcases Nat.le_total a b with h | h
    · rw [min_eq_left h]; exact Or.inl hS.1
    · rw [min_eq_right h]; exact Or.inr hT.1
  · intro w hw
    rcases hw with hw | hw
    · exact le_trans (min_le_left a b) (hS.2 hw)
    · exact le_trans (min_le_right a b) (hT.2 hw)

/-- Invariant of the merge sequence: parent chains decrease, and the root
of every node is the least element of its merge-induced component. -/
def UFInv (ms : List (Nat × Nat)) (f : CF) : Prop :=
  Decr f ∧ ∀ x, IsLeast (mergeClass ms x) (rootOf f x)

lemma ufInv_nil : UFInv [] cfInit := by
  refine ⟨fun x q h => absurd h (by simp [cfInit]), ?_⟩
  intro x
  have hroot : rootOf cfInit x = x := rootOf_root cfInit x rfl
  rw [hroot]
  constructor
  · exact Relation.EqvGen.refl x
  · intro w hw
    have := eqvGen_nil x w hw
    omega

lemma ufInv_root_iff (ms : List (Nat × Nat)) (f : CF) (hinv : UFInv ms f)
    (a b : Nat) : rootOf f a = rootOf f b ↔ Relation.EqvGen (pairRel ms) a b := by
  obtain ⟨hd, hleast⟩ := hinv
  constructor
  · intro h
    have ha : Relation.EqvGen (pairRel ms) a (rootOf f a) := (hleast a).1
    have hb : Relation.EqvGen (pairRel ms) b (rootOf f b) := (hleast b).1
    rw [h] at ha
    exact Relation.EqvGen.trans _ _ _ ha (Relation.EqvGen.symm _ _ hb)
  · intro h
    have hba : IsLeast (mergeClass ms b) (rootOf f a) := by
      refine isLeast_congr ?_ (hleast a)
      intro w
      constructor
      · intro hw
        exact Relation.EqvGen.trans _ _ _ (Relation.EqvGen.symm _ _ h) hw
      · intro hw
        exact Relation.EqvGen.trans _ _ _ h hw
    exact hba.unique (hleast b)

lemma ufInv_step (ms : List (Nat × Nat)) (f : CF) (x y : Nat) (f2 : CF)
    (hinv : UFInv ms f) (hm : cfMerge f x y = some f2) :
    UFInv (ms ++ [(x, y)]) f2 := by
  obtain ⟨hd2, hchar⟩ := cfMerge_characterization f hinv.1 x y f2 hm
  refine ⟨hd2, ?_⟩
  intro z
  rw [hchar z]
  have hiff := ufInv_root_iff ms f hinv
  have hleast := hinv.2
  by_cases hz : rootOf f z = rootOf f x ∨ rootOf f z = rootOf f y
  · rw [if_pos hz]
    rcases hz with hzc | hzc
    · -- z is in x's old component: the new class is class z ∪ class y
      have hzx : Relation.EqvGen (pairRel ms) z x := (hiff z x).1 hzc
      have hset : ∀ w, w ∈ mergeClass (ms ++ [(x, y)]) z ↔
          w ∈ mergeClass ms z ∪ mergeClass ms y := by
        intro w
        show Relation.EqvGen (pairRel (ms ++ [(x, y)])) z w ↔ _
        rw [eqvGen_append_pair]
        constructor
        · intro h
          rcases h with h | ⟨h1, h2⟩ | ⟨h1, h2⟩
          · exact Or.inl h
          · exact Or.inr h2
          · exact Or.inl (Relation.EqvGen.trans _ _ _ hzx h2)
        · intro h
          rcases h with h | h
          · exact Or.inl h
          · exact Or.inr (Or.inl ⟨hzx, h⟩)
      refine isLeast_congr (fun w => (hset w).symm) ?_
      have h1 : IsLeast (mergeClass ms z) (rootOf f x) := by
        rw [← hzc]; exact hleast z
      have h2 : IsLeast (mergeClass ms y) (rootOf f y) := hleast y
      exact isLeast_union_min h1 h2
    · -- z is in y's old component: the new class is class z ∪ class x
      have hzy : Relation.EqvGen (pairRel ms) z y := (hiff z y).1 hzc
      have hset : ∀ w, w ∈ mergeClass (ms ++ [(x, y)]) z ↔
          w ∈ mergeClass ms x ∪ mergeClass ms z := by
        intro w
        show Relation.EqvGen (pairRel (ms ++ [(x, y)])) z w ↔ _
        rw [eqvGen_append_pair]
        constructor
        · intro h
          rcases h with h | ⟨h1, h2⟩ | ⟨h1, h2⟩
          · exact Or.inr h
          · exact Or.inr (Relation.EqvGen.trans _ _ _ hzy h2)
          · exact Or.inl h2
        · intro h
          rcases h with h | h
          · exact Or.inr (Or.inr ⟨hzy, h⟩)
          · exact Or.inl h
      refine isLeast_congr (fun w => (hset w).symm) ?_
      have h1 : IsLeast (mergeClass ms x) (rootOf f x) := hleast x
      have h2 : IsLeast (mergeClass ms z) (rootOf f y) := by
        rw [← hzc]; exact hleast z
      exact isLeast_union_min h1 h2
  · rw [if_neg hz]
    push_neg at hz
    have hset : ∀ w, w ∈ mergeClass (ms ++ [(x, y)]) z ↔ w ∈ mergeClass ms z := by
      intro w
      show Relation.EqvGen (pairRel (ms ++ [(x, y)])) z w ↔ _
      rw [eqvGen_append_pair]
      constructor
      · intro h
        rcases h with h | ⟨h1, h2⟩ | ⟨h1, h2⟩
        · exact h
        · exact absurd ((hiff z x).2 h1) hz.1
        · exact absurd ((hiff z y).2 h1) hz.2
      · intro h
        exact Or.inl h
    exact isLeast_congr (fun w => (hset w).symm) (hleast z)

lemma cfMerge_isSome (f : CF) (x y : Nat) (hxy : x ≠ y) :
    ∃ f2, cfMerge f x y = some f2 := by
  unfold cfMerge
  rw [if_neg hxy]
  dsimp only
  by_cases h1 : (findNode f x).1 = (findNode (findNode f x).2 y).1
  · rw [if_pos h1]; exact ⟨_, rfl⟩
  · rw [if_neg h1]
    by_cases h2 : (findNode f x).1 < (findNode (findNode f x).2 y).1
    · rw [if_pos h2]; exact ⟨_, rfl⟩
    · rw [if_neg h2]; exact ⟨_, rfl⟩

lemma applyMerges_inv : ∀ (ms pre : List (Nat × Nat)) (f f2 : CF),
    UFInv pre f → applyMerges f ms = some f2 → UFInv (pre ++ ms) f2 := by
  intro ms
  induction ms with
  | nil =>
    intro pre f f2 hinv h
    unfold applyMerges at h
    injection h with h
    subst h
    simpa using hinv
  | cons pr rest ih =>
    intro pre f f2 hinv h
    obtain ⟨x, y⟩ := pr
    unfold applyMerges at h
    cases hm : cfMerge f x y with
    | none => rw [hm] at h; exact absurd h (by simp)
    | some fmid =>
      rw [hm] at h
      have hmid := ufInv_step pre f x y fmid hinv hm
      have := ih (pre ++ [(x, y)]) fmid f2 hmid h
      rw [List.append_assoc] at this
      simpa using this

lemma applyMerges_total : ∀ (ms : List (Nat × Nat)) (f : CF),
    (∀ pr ∈ ms, pr.1 ≠ pr.2) → ∃ f2, applyMerges f ms = some f2 := by
  intro ms
  induction ms with
  | nil => intro f _; exact ⟨f, rfl⟩
  | cons pr rest ih =>
    intro f hne
    obtain ⟨x, y⟩ := pr
    obtain ⟨fmid, hm⟩ := cfMerge_isSome f x y (hne (x, y) (by simp))
    obtain ⟨f2, h2⟩ := ih fmid (fun q hq => hne q (by simp [hq]))
    refine ⟨f2, ?_⟩
    unfold applyMerges
    rw [hm]
    exact h2

/-- The two facts needed about the full merge sequence from a fresh
`ComponentFinder`: it succeeds, and every `find` returns the least element
of the merge-induced component. -/
lemma unionFind_correct (ms : List (Nat × Nat))
    (hms : ∀ pr ∈ ms, pr.1 ≠ pr.2) :
    ∃ f, applyMerges cfInit ms = some f ∧ Decr f ∧
      ∀ x, IsLeast (mergeClass ms x) (cfFind f x) := by
  obtain ⟨f, hf⟩ := applyMerges_total ms cfInit hms
  have hinv := applyMerges_inv ms [] cfInit f ufInv_nil hf
  rw [List.nil_append] at hinv
  exact ⟨f, hf, hinv.1, fun x => hinv.2 x⟩

/-! ## `find_components` (scripts/whatshap.py lines 409-431)

Core reads and super-read entries are iterated as 4-tuples
`(position, base, allele, quality)` with integer alleles. -/

structure CoreVar where
  position : Nat
  base : List Char
  allele : Int
  quality : Int
deriving DecidableEq, Repr

/-- `[position for position, base, allele, quality in superreads[0]
if allele in [0,1]]`. -/
def phasedPositions (sr0 : List CoreVar) : List Nat :=
  (sr0.filter fun v => decide (v.allele = 0 ∨ v.allele = 1)).map CoreVar.position

/-- Non-decreasing test: `phased_positions == sorted(phased_positions)`
(the assert in `find_components`). -/
def nondecB : List Nat → Bool
  | [] => true
  | [_] => true
  | a :: b :: rest => decide (a ≤ b) && nondecB (b :: rest)

/-- `[position for position, … in read if position in phased_positions]`. -/
def fposOf (phased : List Nat) (read : List CoreVar) : List Nat :=
  (read.map CoreVar.position).filter fun p => decide (p ∈ phased)

/-- The merges performed by `find_components`: for each read, the first
phased position with every later phased position of the read. -/
def fcMerges (phased : List Nat) (reads : List (List CoreVar)) : List (Nat × Nat) :=
  reads.flatMap fun read =>
    match fposOf phased read with
    | [] => []
    | p0 :: rest => rest.map fun p => (p0, p)

/-- The dict comprehension
`{position: component_finder.find(position) for position in phased_positions}`;
each `find` path-compresses, so the state is threaded. (The Python
iteration is over a set whose order is unspecified; the resulting mapping
is order-independent because `find` results are compression-invariant,
which `compress_preserves` proves.) -/
def fcMapGo (f : CF) : List Nat → List (Nat × Nat)
  | [] => []
  | p :: rest => (p, (findNode f p).1) :: fcMapGo (findNode f p).2 rest

/-- `find_components(superreads, reads)`. Only `superreads[0]` feeds the
computation; the embedding models the sortedness assert as a guard and the
`assert x != y` inside `merge` through `applyMerges`. -/
def find_components (sr0 : List CoreVar) (reads : List (List CoreVar)) :
    Option (List (Nat × Nat)) :=
  if nondecB (phasedPositions sr0) then
    match applyMerges cfInit (fcMerges (phasedPositions sr0) reads) with
    | none => none
    | some f => some (fcMapGo f (phasedPositions sr0))
  else none

/-- Two positions co-occur (as phased positions) on some fragment. -/
def coOccur (phased : List Nat) (reads : List (List CoreVar)) (p q : Nat) : Prop :=
  ∃ read ∈ reads, p ∈ fposOf phased read ∧ q ∈ fposOf phased read

lemma mem_fposOf_phased (phased : List Nat) (read : List CoreVar) (p : Nat)
    (h : p ∈ fposOf phased read) : p ∈ phased := by
  unfold fposOf at h
  have := List.of_mem_filter h
  simpa using this

lemma fcMerges_sub_coOccur (phased : List Nat) (reads : List (List CoreVar))
    (a b : Nat) (h : pairRel (fcMerges phased reads) a b) :
    coOccur phased reads a b := by
  unfold pairRel fcMerges at h
  rw [List.mem_flatMap] at h
  obtain ⟨read, hread, hmem⟩ := h
  cases hf : fposOf phased read with
  | nil => rw [hf] at hmem; simp at hmem
  | cons p0 rest =>
    rw [hf] at hmem
    dsimp only at hmem
    rw [List.mem_map] at hmem
    obtain ⟨p, hp, heq⟩ := hmem
    injection heq with h1 h2
    subst h1
    subst h2
    exact ⟨read, hread, by rw [hf]; simp, by rw [hf]; simp [hp]⟩

lemma eqvGen_closure_mono {r s : Nat → Nat → Prop}
    (hsub : ∀ a b, r a b → Relation.EqvGen s a b) :
    ∀ a b, Relation.EqvGen r a b → Relation.EqvGen s a b := by
  intro a b h
  induction h with
  | rel a b hr => exact hsub a b hr
  | refl a => exact Relation.EqvGen.refl a
  | symm a b _ ih => exact Relation.EqvGen.symm a b ih
  | trans a b c _ _ ih1 ih2 => exact Relation.EqvGen.trans a b c ih1 ih2

lemma coOccur_sub_eqvGen (phased : List Nat) (reads : List (List CoreVar))
    (p q : Nat) (h : coOccur phased reads p q) :
    Relation.EqvGen (pairRel (fcMerges phased reads)) p q := by
  obtain ⟨read, hread, hp, hq⟩ := h
  cases hf : fposOf phased read with
  | nil => rw [hf] at hp; simp at hp
  | cons p0 rest =>
    have hstar : ∀ w ∈ fposOf phased read,
        Relation.EqvGen (pairRel (fcMerges phased reads)) p0 w := by
      intro w hw
      rw [hf] at hw
      rcases List.mem_cons.1 hw with rfl | hw
      · exact Relation.EqvGen.refl w
      · refine Relation.EqvGen.rel p0 w ?_
        unfold pairRel fcMerges
        rw [List.mem_flatMap]
        exact ⟨read, hread, by rw [hf]; exact List.mem_map.2 ⟨w, hw, rfl⟩⟩
    exact Relation.EqvGen.trans _ _ _
      (Relation.EqvGen.symm _ _ (hstar p hp)) (hstar q hq)

lemma mergeClass_eq_coClass (phased : List Nat) (reads : List (List CoreVar))
    (p w : Nat) :
    Relation.EqvGen (pairRel (fcMerges phased reads)) p w ↔
      Relation.EqvGen (coOccur phased reads) p w := by
  constructor
  · exact fun h => eqvGen_closure_mono
      (fun a b hr => Relation.EqvGen.rel a b (fcMerges_sub_coOccur phased reads a b hr))
      p w h
  · exact fun h => eqvGen_closure_mono
      (fun a b hr => coOccur_sub_eqvGen phased reads a b hr) p w h

lemma fcMapGo_eq (f : CF) (hd : Decr f) :
    ∀ l : List Nat, fcMapGo f l = l.map fun p => (p, rootOf f p) := by
  intro l
  induction l generalizing f with
  | nil => rfl
  | cons p rest ih =>
    unfold fcMapGo
    obtain ⟨hd2, hp2⟩ := findNode_snd f hd p
    rw [findNode_fst, ih (findNode f p).2 hd2]
    simp only [List.map_cons, List.cons.injEq, true_and]
    exact List.map_congr_left fun q _ => by rw [hp2 q]

lemma lookup_map_self (g : Nat → Nat) :
    ∀ (l : List Nat) (p : Nat), p ∈ l →
      (l.map fun q => (q, g q)).lookup p = some (g p) := by
  intro l
  induction l with
  | nil => intro p hp; simp at hp
  | cons a rest ih =>
    intro p hp
    simp only [List.map_cons, List.lookup]
    by_cases h : p = a
    · subst h
      simp
    · rw [show (p == a) = false by simpa using h]
      rcases List.mem_cons.1 hp with h1 | h1
      · exact absurd h1 h
      · exact ih p h1

/-- Everything `find_components` guarantees about its result: co-occurring
phased positions get the same representative, and each phased position maps
to the least element of its co-occurrence component. -/
lemma find_components_spec (sr0 : List CoreVar) (reads : List (List CoreVar))
    (comps : List (Nat × Nat)) (h : find_components sr0 reads = some comps) :
    (∀ p q, coOccur (phasedPositions sr0) reads p q →
      comps.lookup p = comps.lookup q) ∧
    (∀ p ∈ phasedPositions sr0, ∃ m, comps.lookup p = some m ∧
      IsLeast {q | Relation.EqvGen (coOccur (phasedPositions sr0) reads) p q} m) := by
  unfold find_components at h
  by_cases hsor : nondecB (phasedPositions sr0) = true
  · rw [if_pos hsor] at h
    cases hap : applyMerges cfInit (fcMerges (phasedPositions sr0) reads) with
    | none => rw [hap] at h; exact absurd h (by simp)
    | some f =>
      rw [hap] at h
      injection h with h
      subst h
      have hinv := applyMerges_inv (fcMerges (phasedPositions sr0) reads) [] cfInit f
        ufInv_nil hap
      rw [List.nil_append] at hinv
      have hmap := fcMapGo_eq f hinv.1 (phasedPositions sr0)
      constructor
      · intro p q hpq
        obtain ⟨read, hread, hp, hq⟩ := hpq
        have hpph : p ∈ phasedPositions sr0 := mem_fposOf_phased _ read p hp
        have hqph : q ∈ phasedPositions sr0 := mem_fposOf_phased _ read q hq
        rw [hmap, lookup_map_self _ _ p hpph, lookup_map_self _ _ q hqph]
        have hE : Relation.EqvGen (pairRel (fcMerges (phasedPositions sr0) reads)) p q :=
          coOccur_sub_eqvGen _ reads p q ⟨read, hread, hp, hq⟩
        rw [(ufInv_root_iff _ f hinv p q).2 hE]
      · intro p hpph
        rw [hmap, lookup_map_self _ _ p hpph]
        refine ⟨rootOf f p, rfl, ?_⟩
        refine isLeast_congr ?_ (hinv.2 p)
        intro w
        exact mergeClass_eq_coClass (phasedPositions sr0) reads p w
  · rw [if_neg hsor] at h
    exact absurd h (by simp)

/-- C2: from a fresh `ComponentFinder` over `values`, after any sequence of
merges of distinct values, `find(x)` returns the smallest value in the
connected component of `x` induced by the merges (in particular a value
never merged with any other is its own representative); consequently in the
map returned by `find_components`, positions co-occurring on a fragment
share a representative, which is the minimum position of their
co-occurrence component. -/
theorem componentFinder_find_is_component_min
    (values : List Nat) (ms : List (Nat × Nat)) (x : Nat)
    (hx : x ∈ values)
    (hms : ∀ pr ∈ ms, pr.1 ∈ values ∧ pr.2 ∈ values ∧ pr.1 ≠ pr.2) :
    (∃ f, applyMerges cfInit ms = some f ∧
      IsLeast (mergeClass ms x) (cfFind f x) ∧
      ((∀ pr ∈ ms, pr.1 ≠ x ∧ pr.2 ≠ x) → cfFind f x = x)) ∧
    (∀ (sr0 : List CoreVar) (reads : List (List CoreVar)) (comps : List (Nat × Nat)),
      find_components sr0 reads = some comps →
      (∀ p q, coOccur (phasedPositions sr0) reads p q →
        comps.lookup p = comps.lookup q) ∧
      (∀ p ∈ phasedPositions sr0, ∃ m, comps.lookup p = some m ∧
        IsLeast {q | Relation.EqvGen (coOccur (phasedPositions sr0) reads) p q} m)) := by
  constructor
  · obtain ⟨f, hf, hd, hleast⟩ := unionFind_correct ms (fun pr hpr => (hms pr hpr).2.2)
    refine ⟨f, hf, hleast x, ?_⟩
    intro hnot
    have hsingle : ∀ a b, Relation.EqvGen (pairRel ms) a b →
        (a = x → b = x) ∧ (b = x → a = x) := by
      intro a b h
      induction h with
      | rel a b hr =>
        exact ⟨fun ha => absurd ha (hnot (a, b) hr).1,
          fun hb => absurd hb (hnot (a, b) hr).2⟩
      | refl a => exact ⟨id, id⟩
      | symm a b _ ih => exact ⟨ih.2, ih.1⟩
      | trans a b c _ _ ih1 ih2 =>
        exact ⟨fun ha => ih2.1 (ih1.1 ha), fun hc => ih1.2 (ih2.2 hc)⟩
    have hxleast : IsLeast (mergeClass ms x) x := by
      constructor
      · exact Relation.EqvGen.refl x
      · intro w hw
        rw [(hsingle x w hw).1 rfl]
    exact (hleast x).unique hxleast
  · intro sr0 reads comps h
    exact find_components_spec sr0 reads comps h

theorem componentFinder_find_is_component_min_witness :
    (∃ f, applyMerges cfInit [(1, 3), (3, 2)] = some f ∧
      IsLeast (mergeClass [(1, 3), (3, 2)] 2) (cfFind f 2) ∧
      ((∀ pr ∈ [((1 : Nat), (3 : Nat)), (3, 2)], pr.1 ≠ 2 ∧ pr.2 ≠ 2) → cfFind f 2 = 2)) ∧
    (∀ (sr0 : List CoreVar) (reads : List (List CoreVar)) (comps : List (Nat × Nat)),
      find_components sr0 reads = some comps →
      (∀ p q, coOccur (phasedPositions sr0) reads p q →
        comps.lookup p = comps.lookup q) ∧
      (∀ p ∈ phasedPositions sr0, ∃ m, comps.lookup p = some m ∧
        IsLeast {q | Relation.EqvGen (coOccur (phasedPositions sr0) reads) p q} m)) :=
  componentFinder_find_is_component_min [1, 2, 3] [(1, 3), (3, 2)] 2
    (by decide) (by decide)

/-! ## Component discovery in `main` (scripts/whatshap.py lines 491-511)

`main` reassigns `reads = slice_reads(reads, args.max_coverage)[0]` and
builds `core_reads` from that first slice only, so `find_components`
receives the fragments of slice 0, not the whole unsliced read set. -/

/-- Modelled from the spec: `read_to_coreread` (module `whatshap.phase`,
not under src/) — §4.5 describes the Read Set entries as the fragments'
observations; a core read is the fragment's non-sentinel observations in
order, with integer alleles (`1` for the alternative call, `0` otherwise).
`find_components` only reads the `position` field of these tuples, so the
claims below do not depend on the other fields. -/
def toCoreVar (rv : ReadVariant) : CoreVar :=
  ⟨rv.position, rv.base, if rv.allele = '1' then 1 else 0, rv.quality⟩

def coreOfRead (r : ReadVariantList) : List CoreVar :=
  (nonSentinel r).map toCoreVar

/-- The composition executed by `main`:
`components = find_components(superreads, core_reads)` where `core_reads`
is built from `slice_reads(reads, max_coverage)[0]`. -/
def mainPipelineComponents (sr0 : List CoreVar) (reads : List ReadVariantList)
    (maxCov : Nat) : Option (List (Nat × Nat)) :=
  match slice_reads reads maxCov with
  | none => none
  | some slices =>
    match slices with
    | [] => none
    | s0 :: _ => find_components sr0 (s0.map coreOfRead)

def sr0C1 : List CoreVar :=
  [⟨1, ['A'], 0, 9⟩, ⟨2, ['A'], 1, 9⟩, ⟨3, ['A'], 0, 9⟩]

def readC1a : ReadVariantList :=
  { name := "x1", mapq := .single 50,
    variants := [some ⟨1, ['A'], '0', 9⟩, some ⟨2, ['A'], '1', 9⟩] }

def readC1b : ReadVariantList :=
  { name := "x2", mapq := .single 50,
    variants := [some ⟨2, ['A'], '0', 9⟩, some ⟨3, ['A'], '1', 9⟩] }

/-- C1 (counterexample to the claim as stated): with `max_coverage = 1`,
fragment `readC1b` is placed into slice 1, so the pipeline's component map
(computed over slice 0 only) leaves position 3 in its own component,
whereas `find_components` over the full unsliced fragment list joins all
three positions. The component map is *not* computed over the original
(unsliced) read set. -/
theorem find_components_uses_slice0_counterexample :
    mainPipelineComponents sr0C1 [readC1a, readC1b] 1 =
      some [(1, 1), (2, 1), (3, 3)] ∧
    find_components sr0C1 ([readC1a, readC1b].map coreOfRead) =
      some [(1, 1), (2, 1), (3, 1)] ∧
    ([((1 : Nat), (1 : Nat)), (2, 1), (3, 3)] : List (Nat × Nat)) ≠
      [(1, 1), (2, 1), (3, 1)] := by
  refine ⟨by decide, by decide, by decide⟩

/-- C1 (amended): the component map in `main` is computed over the fragments
of the *selected first slice*: when `slice_reads` returns `s0 :: rest`, the
pipeline's component map is exactly `find_components` applied to the core
reads of `s0`, and it maps each phased position to the minimum of its
co-occurrence component *within slice 0* (first phased position of each
slice-0 fragment unioned with every other phased position of that
fragment). -/
theorem main_components_over_first_slice
    (sr0 : List CoreVar) (reads : List ReadVariantList) (maxCov : Nat)
    (slices : List (List ReadVariantList)) (comps : List (Nat × Nat))
    (hsl : slice_reads reads maxCov = some slices)
    (hcomps : mainPipelineComponents sr0 reads maxCov = some comps) :
    (∃ s0 rest, slices = s0 :: rest ∧
      find_components sr0 (s0.map coreOfRead) = some comps) ∧
    (∀ s0 rest, slices = s0 :: rest →
      ∀ p ∈ phasedPositions sr0, ∃ m, comps.lookup p = some m ∧
        IsLeast {q | Relation.EqvGen
          (coOccur (phasedPositions sr0) (s0.map coreOfRead)) p q} m) := by
  unfold mainPipelineComponents at hcomps
  rw [hsl] at hcomps
  cases slices with
  | nil => exact absurd hcomps (by simp)
  | cons s0 rest =>
    dsimp only at hcomps
    constructor
    · exact ⟨s0, rest, rfl, hcomps⟩
    · intro s0' rest' heq p hp
      injection heq with h1 h2
      subst h1
      exact (find_components_spec sr0 (s0.map coreOfRead) comps hcomps).2 p hp

theorem main_components_over_first_slice_witness :
    (∃ s0 rest, ([[readC1a], [readC1b]] : List (List ReadVariantList)) = s0 :: rest ∧
      find_components sr0C1 (s0.map coreOfRead) = some [(1, 1), (2, 1), (3, 3)]) ∧
    (∀ s0 rest, ([[readC1a], [readC1b]] : List (List ReadVariantList)) = s0 :: rest →
      ∀ p ∈ phasedPositions sr0C1, ∃ m,
        (List.lookup p [((1 : Nat), (1 : Nat)), (2, 1), (3, 3)]) = some m ∧
        IsLeast {q | Relation.EqvGen
          (coOccur (phasedPositions sr0C1) (s0.map coreOfRead)) p q} m) :=
  main_components_over_first_slice sr0C1 [readC1a, readC1b] 1
    [[readC1a], [readC1b]] [(1, 1), (2, 1), (3, 3)] (by decide) (by decide)

/-! ## Extension voter (`run_extend` / `best_candidate` /
`length_of_polymer`, cli/extend.py)

Scores are integer qualities; the quality fraction `q = score1 / total`
(Python float division) is modelled exactly as a rational. -/

structure ExtParams where
  gap_threshold : Nat
  cut_poly : Nat
  only_indels : Bool
deriving DecidableEq, Repr

/-- An entry of the `super_reads` lists: `Variant(pos, allele, quality)`. -/
structure SRV where
  position : Nat
  allele : Nat
  quality : Nat
deriving DecidableEq, Repr

/-- Python string subscription `ref[i]` (negative indices wrap once;
out-of-range raises IndexError → `none`). -/
def pyCharAt (s : List Char) (i : Int) : Option Char :=
  if 0 ≤ i then s[i.toNat]?
  else if 0 ≤ i + s.length then s[(i + s.length).toNat]?
  else none

/-- `length_of_polymer(ref, start, step, threshold)`: count consecutive
reference characters equal to `ref[start]` walking from `start` by `step`,
stopping at the first mismatch or once `res` reaches `threshold` (the
`res < threshold` test short-circuits before any indexing). `none` models
an IndexError. -/
def lopAux (ref : List Char) (start step : Int) (threshold : Nat) :
    Nat → Int → Nat → Option Nat
  | 0, _, res => some res
  | fuel + 1, i, res =>
    if res < threshold then
      match pyCharAt ref i, pyCharAt ref start with
      | some a, some b =>
        if a = b then lopAux ref start step threshold fuel (i + step) (res + 1)
        else some res
      | _, _ => none
    else some res

def length_of_polymer (ref : List Char) (start step : Int) (threshold : Nat) :
    Option Nat :=
  lopAux ref start step threshold (threshold + 1) start 0

/-- Stable descending insertion by accumulated score, matching Python's
stable `lst.sort(key=lambda x: x[-1], reverse=True)`: a new element goes
after all elements whose score is at least its own. -/
def insertDescVote (x : (Nat × Nat) × Nat) :
    List ((Nat × Nat) × Nat) → List ((Nat × Nat) × Nat)
  | [] => [x]
  | y :: ys => if x.2 ≤ y.2 then y :: insertDescVote x ys else x :: y :: ys

def sortVotesDesc (var : List ((Nat × Nat) × Nat)) : List ((Nat × Nat) × Nat) :=
  var.foldl (fun acc x => insertDescVote x acc) []

def totalScore (lst : List ((Nat × Nat) × Nat)) : Nat := (lst.map (·.2)).sum

/-- Python dict assignment `components[pos] = ps1`: overwrite in place if
the key exists, else append. -/
def setAssoc (l : List (Nat × Nat)) (k v : Nat) : List (Nat × Nat) :=
  if l.any fun kv => kv.1 == k then
    l.map fun kv => if kv.1 = k then (k, v) else kv
  else l ++ [(k, v)]

/-- `best_candidate(components, pos, var)`: sort the vote items by score
descending, record `components[pos] = ps1` (this happens *before* the
caller's skip tests), and return `(al1, q, score1)` with
`q = score1 / total`. `none` models the IndexError on an empty vote table
and the ZeroDivisionError on an all-zero one. -/
def best_candidate (components : List (Nat × Nat)) (pos : Nat)
    (var : List ((Nat × Nat) × Nat)) :
    Option ((Nat × ℚ × Nat) × List (Nat × Nat)) :=
  match sortVotesDesc var with
  | [] => none
  | ((ps1, al1), score1) :: rest =>
    if totalScore (((ps1, al1), score1) :: rest) = 0 then none
    else some ((al1, (score1 : ℚ) / (totalScore (((ps1, al1), score1) :: rest) : ℚ),
        score1), setAssoc components pos ps1)

/-- The per-position loop of `run_extend` (lines 139-153): call
`best_candidate` (which assigns the component) and then apply the three
skip rules; only a position passing all of them is appended to the two
super-reads, with the winning allele, its complement, and the winning
score as quality. -/
def processVotes (P : ExtParams) (fasta : List Char) (phased isSnv : Nat → Bool) :
    List (Nat × List ((Nat × Nat) × Nat)) → List (Nat × Nat) → List SRV → List SRV →
    Option (List (Nat × Nat) × List SRV × List SRV)
  | [], comps, sr0, sr1 => some (comps, sr0, sr1)
  | (pos, var) :: rest, comps, sr0, sr1 =>
    match best_candidate comps pos var with
    | none => none
    | some ((al1, q, score1), comps2) =>
      if 100 * q < (P.gap_threshold : ℚ) ∧ ¬ phased pos = true then
        processVotes P fasta phased isSnv rest comps2 sr0 sr1
      else if P.only_indels = true ∧ isSnv pos = true ∧ ¬ phased pos = true then
        processVotes P fasta phased isSnv rest comps2 sr0 sr1
      else if 0 < P.cut_poly then
        match length_of_polymer fasta ((pos : Int) + 1) 1 P.cut_poly,
          length_of_polymer fasta (pos : Int) (-1) P.cut_poly with
        | some l1, some l2 =>
          if P.cut_poly ≤ max l1 l2 then
            processVotes P fasta phased isSnv rest comps2 sr0 sr1
          else
            processVotes P fasta phased isSnv rest comps2
              (sr0 ++ [⟨pos, al1, score1⟩]) (sr1 ++ [⟨pos, al1 ^^^ 1, score1⟩])
        | _, _ => none
      else
        processVotes P fasta phased isSnv rest comps2
          (sr0 ++ [⟨pos, al1, score1⟩]) (sr1 ++ [⟨pos, al1 ^^^ 1, score1⟩])

def insertByPosSRV (x : SRV) : List SRV → List SRV
  | [] => [x]
  | y :: ys => if x.position < y.position then x :: y :: ys else y :: insertByPosSRV x ys

/-- The final `read.sort(key=lambda x: x.position)` (stable). -/
def sortSRV (l : List SRV) : List SRV :=
  l.foldl (fun acc x => insertByPosSRV x acc) []

/-- One sample's vote-processing pass of `run_extend`: the loop over
`votes.items()` followed by the per-haplotype position sort. -/
def runExtendSample (P : ExtParams) (fasta : List Char) (phased isSnv : Nat → Bool)
    (votes : List (Nat × List ((Nat × Nat) × Nat))) :
    Option (List (Nat × Nat) × List SRV × List SRV) :=
  match processVotes P fasta phased isSnv votes [] [] [] with
  | none => none
  | some (comps, s0, s1) => some (comps, sortSRV s0, sortSRV s1)

section
attribute [local semireducible] Rat.inv Rat.mul

/-- C5 (counterexample to the claim as stated): position 7's winning vote
fraction is 1/2, below the 70% gap threshold, and the position is unphased,
so nothing is emitted — yet `best_candidate` has already assigned
`components[7] = 5` before the skip test ran. Assignment is *not* "exactly
when emitted". -/
theorem extend_component_assigned_without_emission_counterexample :
    runExtendSample ⟨70, 0, false⟩ [] (fun _ => false) (fun _ => true)
        [(7, [((5, 0), 1), ((5, 1), 1)])] =
      some ([(7, 5)], [], []) ∧
    (List.lookup 7 [((7 : Nat), (5 : Nat))]).isSome = true ∧
    ¬ 7 ∈ (([] : List SRV).map SRV.position) := by
  refine ⟨by decide, by decide, by decide⟩

/-- The emission condition of the `run_extend` loop for one voted position:
none of the three skip rules fires — the winning vote fraction is not below
the gap threshold (or the position is already phased), the only-indels rule
does not apply, and if the homopolymer cut is active both flanking polymer
lengths are defined and below the cut. -/
def emitCond (P : ExtParams) (fasta : List Char) (phased isSnv : Nat → Bool)
    (pos : Nat) (var : List ((Nat × Nat) × Nat)) : Prop :=
  match sortVotesDesc var with
  | [] => False
  | e :: rest =>
    ¬ (100 * ((e.2 : ℚ) / (totalScore (e :: rest) : ℚ)) < (P.gap_threshold : ℚ) ∧
        ¬ phased pos = true) ∧
    ¬ (P.only_indels = true ∧ isSnv pos = true ∧ ¬ phased pos = true) ∧
    (0 < P.cut_poly →
      ∃ l1 l2, length_of_polymer fasta ((pos : Int) + 1) 1 P.cut_poly = some l1 ∧
        length_of_polymer fasta (pos : Int) (-1) P.cut_poly = some l2 ∧
        max l1 l2 < P.cut_poly)

lemma emitCond_iff {P : ExtParams} {fasta : List Char} {phased isSnv : Nat → Bool}
    {pos : Nat} {var : List ((Nat × Nat) × Nat)} {e : (Nat × Nat) × Nat}
    {rest2 : List ((Nat × Nat) × Nat)} (hs : sortVotesDesc var = e :: rest2) :
    emitCond P fasta phased isSnv pos var ↔
      (¬ (100 * ((e.2 : ℚ) / (totalScore (e :: rest2) : ℚ)) < (P.gap_threshold : ℚ) ∧
          ¬ phased pos = true) ∧
       ¬ (P.only_indels = true ∧ isSnv pos = true ∧ ¬ phased pos = true) ∧
       (0 < P.cut_poly →
         ∃ l1 l2, length_of_polymer fasta ((pos : Int) + 1) 1 P.cut_poly = some l1 ∧
           length_of_polymer fasta (pos : Int) (-1) P.cut_poly = some l2 ∧
           max l1 l2 < P.cut_poly)) := by
  unfold emitCond
  rw [hs]

lemma insertDescVote_perm (x : (Nat × Nat) × Nat) :
    ∀ l : List ((Nat × Nat) × Nat), (insertDescVote x l).Perm (x :: l) := by
  intro l
  induction l with
  | nil => simp [insertDescVote]
  | cons y ys ih =>
    unfold insertDescVote
    by_cases h : x.2 ≤ y.2
    · rw [if_pos h]
      exact (ih.cons y).trans (List.Perm.swap x y ys)
    · rw [if_neg h]

lemma sortVotesDesc_perm (var : List ((Nat × Nat) × Nat)) :
    (sortVotesDesc var).Perm var := by
  have main : ∀ (l acc : List ((Nat × Nat) × Nat)),
      (l.foldl (fun acc x => insertDescVote x acc) acc).Perm (acc ++ l) := by
    intro l
    induction l with
    | nil => intro acc; simp
    | cons x xs ih =>
      intro acc
      simp only [List.foldl_cons]
      refine (ih (insertDescVote x acc)).trans ?_
      have h1 : (insertDescVote x acc ++ xs).Perm ((x :: acc) ++ xs) :=
        (insertDescVote_perm x acc).append_right xs
      refine h1.trans ?_
      simp only [List.cons_append]
      exact List.Perm.symm List.perm_middle
  simpa using main var []

lemma insertDescVote_head (x : (Nat × Nat) × Nat) :
    ∀ l : List ((Nat × Nat) × Nat),
      (insertDescVote x l).head? = some x ∨ (insertDescVote x l).head? = l.head? := by
  intro l
  cases l with
  | nil => exact Or.inl rfl
  | cons y ys =>
    unfold insertDescVote
    by_cases h : x.2 ≤ y.2
    · rw [if_pos h]; exact Or.inr rfl
    · rw [if_neg h]; exact Or.inl rfl

lemma insertDescVote_sorted (x : (Nat × Nat) × Nat) :
    ∀ l : List ((Nat × Nat) × Nat),
      List.Chain' (fun a b => b.2 ≤ a.2) l →
      List.Chain' (fun a b => b.2 ≤ a.2) (insertDescVote x l) := by
  intro l
  induction l with
  | nil => intro _; simp [insertDescVote]
  | cons y ys ih =>
    intro h
    unfold insertDescVote
    by_cases hxy : x.2 ≤ y.2
    · rw [if_pos hxy]
      rw [List.chain'_cons'] at h ⊢
      refine ⟨?_, ih h.2⟩
      intro z hz
      rcases insertDescVote_head x ys with hh | hh
      · rw [hh] at hz
        simp only [Option.mem_def, Option.some.injEq] at hz
        subst hz
        exact hxy
      · rw [hh] at hz
        exact h.1 z hz
    · rw [if_neg hxy]
      rw [List.chain'_cons]
      exact ⟨by omega, h⟩

lemma sortVotesDesc_sorted (var : List ((Nat × Nat) × Nat)) :
    List.Chain' (fun a b => b.2 ≤ a.2) (sortVotesDesc var) := by
  have main : ∀ (l acc : List ((Nat × Nat) × Nat)),
      List.Chain' (fun a b => b.2 ≤ a.2) acc →
      List.Chain' (fun a b => b.2 ≤ a.2)
        (l.foldl (fun acc x => insertDescVote x acc) acc) := by
    intro l
    induction l with
    | nil => intro acc h; exact h
    | cons x xs ih =>
      intro acc h
      simp only [List.foldl_cons]
      exact ih _ (insertDescVote_sorted x acc h)
  exact main var [] (by simp)

lemma descChain_head_ge :
    ∀ (rest : List ((Nat × Nat) × Nat)) (e : (Nat × Nat) × Nat),
      List.Chain' (fun a b => b.2 ≤ a.2) (e :: rest) → ∀ e' ∈ rest, e'.2 ≤ e.2 := by
  intro rest
  induction rest with
  | nil =>
    intro e _ e' he'
    cases he'
  | cons f rs ih =>
    intro e h e' he'
    rw [List.chain'_cons] at h
    rcases List.mem_cons.mp he' with rfl | hmem
    · exact h.1
    · exact le_trans (ih f h.2 e' hmem) h.1

lemma sortVotesDesc_head_max {var : List ((Nat × Nat) × Nat)}
    {e : (Nat × Nat) × Nat} {rest2 : List ((Nat × Nat) × Nat)}
    (h : sortVotesDesc var = e :: rest2) :
    e ∈ var ∧ ∀ e' ∈ var, e'.2 ≤ e.2 := by
  have hp := sortVotesDesc_perm var
  rw [h] at hp
  constructor
  · exact hp.subset (List.mem_cons_self e rest2)
  · intro e' he'
    have hmem : e' ∈ e :: rest2 := hp.symm.subset he'
    rcases List.mem_cons.mp hmem with rfl | hmem2
    · exact le_refl _
    · have hsorted := sortVotesDesc_sorted var
      rw [h] at hsorted
      exact descChain_head_ge rest2 e hsorted e' hmem2

lemma best_candidate_some {components : List (Nat × Nat)} {pos : Nat}
    {var : List ((Nat × Nat) × Nat)} {al1 : Nat} {q : ℚ} {score1 : Nat}
    {comps2 : List (Nat × Nat)}
    (h : best_candidate components pos var = some ((al1, q, score1), comps2)) :
    ∃ ps1 rest2, sortVotesDesc var = ((ps1, al1), score1) :: rest2 ∧
      totalScore (((ps1, al1), score1) :: rest2) ≠ 0 ∧
      q = (score1 : ℚ) / (totalScore (((ps1, al1), score1) :: rest2) : ℚ) ∧
      comps2 = setAssoc components pos ps1 := by
  unfold best_candidate at h
  cases hs : sortVotesDesc var with
  | nil =>
    rw [hs] at h
    exact absurd h (by simp)
  | cons e rest2 =>
    rw [hs] at h
    obtain ⟨⟨ps1', al1'⟩, score1'⟩ := e
    dsimp only at h
    by_cases ht : totalScore (((ps1', al1'), score1') :: rest2) = 0
    · rw [if_pos ht] at h
      exact absurd h (by simp)
    · rw [if_neg ht] at h
      simp only [Option.some.injEq, Prod.mk.injEq] at h
      obtain ⟨⟨h1, h2, h3⟩, h4⟩ := h
      subst h1; subst h3
      exact ⟨ps1', rest2, rfl, ht, h2.symm, h4.symm⟩

lemma setAssoc_fresh {l : List (Nat × Nat)} {k v : Nat}
    (h : ∀ kv ∈ l, kv.1 ≠ k) : setAssoc l k v = l ++ [(k, v)] := by
  unfold setAssoc
  rw [if_neg]
  simp only [List.any_eq_true, beq_iff_eq, not_exists]
  intro kv
  intro hc
  rcases hc with ⟨hm, he⟩
  exact h kv hm he

lemma lookup_of_mem_nodup :
    ∀ {l : List (Nat × Nat)} {k v : Nat},
      (l.map Prod.fst).Nodup → (k, v) ∈ l → l.lookup k = some v := by
  intro l
  induction l with
  | nil =>
    intro k v _ hm
    cases hm
  | cons hd tl ih =>
    intro k v hnd hm
    obtain ⟨a, b⟩ := hd
    simp only [List.map_cons, List.nodup_cons] at hnd
    rcases List.mem_cons.mp hm with heq | htl
    · injection heq with h1 h2
      subst h1; subst h2
      simp [List.lookup]
    · have hka : k ≠ a := by
        intro hk
        subst hk
        exact hnd.1 (List.mem_map_of_mem Prod.fst htl)
      rw [List.lookup]
      rw [show (k == a) = false by simpa using hka]
      exact ih hnd.2 htl

lemma insertByPosSRV_perm (x : SRV) :
    ∀ l : List SRV, (insertByPosSRV x l).Perm (x :: l) := by
  intro l
  induction l with
  | nil => simp [insertByPosSRV]
  | cons y ys ih =>
    unfold insertByPosSRV
    by_cases h : x.position < y.position
    · rw [if_pos h]
    · rw [if_neg h]
      exact (ih.cons y).trans (List.Perm.swap x y ys)

lemma sortSRV_perm (l : List SRV) : (sortSRV l).Perm l := by
  have main : ∀ (l acc : List SRV),
      (l.foldl (fun acc x => insertByPosSRV x acc) acc).Perm (acc ++ l) := by
    intro l
    induction l with
    | nil => intro acc; simp
    | cons x xs ih =>
      intro acc
      simp only [List.foldl_cons]
      refine (ih (insertByPosSRV x acc)).trans ?_
      have h1 : (insertByPosSRV x acc ++ xs).Perm ((x :: acc) ++ xs) :=
        (insertByPosSRV_perm x acc).append_right xs
      refine h1.trans ?_
      simp only [List.cons_append]
      exact List.Perm.symm List.perm_middle
  simpa using main l []

lemma processVotes_spec (P : ExtParams) (fasta : List Char) (phased isSnv : Nat → Bool) :
    ∀ (vs : List (Nat × List ((Nat × Nat) × Nat))) (comps0 : List (Nat × Nat))
      (a0 a1 : List SRV) (compsF : List (Nat × Nat)) (s0F s1F : List SRV),
      processVotes P fasta phased isSnv vs comps0 a0 a1 = some (compsF, s0F, s1F) →
      (comps0.map Prod.fst ++ vs.map Prod.fst).Nodup →
      compsF.map Prod.fst = comps0.map Prod.fst ++ vs.map Prod.fst ∧
      (∀ kv ∈ comps0, kv ∈ compsF) ∧
      (∀ v ∈ a0, v ∈ s0F) ∧ (∀ v ∈ a1, v ∈ s1F) ∧
      (∀ v ∈ s0F, v ∈ a0 ∨ v.position ∈ vs.map Prod.fst) ∧
      (∀ v ∈ s1F, v ∈ a1 ∨ v.position ∈ vs.map Prod.fst) ∧
      (∀ pos var, (pos, var) ∈ vs →
        ∃ ps al s rest2, sortVotesDesc var = ((ps, al), s) :: rest2 ∧
          (pos, ps) ∈ compsF ∧
          (emitCond P fasta phased isSnv pos var →
            (⟨pos, al, s⟩ : SRV) ∈ s0F ∧ (⟨pos, al ^^^ 1, s⟩ : SRV) ∈ s1F) ∧
          (¬ emitCond P fasta phased isSnv pos var →
            (¬ pos ∈ a0.map SRV.position → ¬ pos ∈ s0F.map SRV.position) ∧
            (¬ pos ∈ a1.map SRV.position → ¬ pos ∈ s1F.map SRV.position))) := by
  intro vs
  induction vs with
  | nil =>
    intro comps0 a0 a1 compsF s0F s1F h hnd
    unfold processVotes at h
    simp only [Option.some.injEq, Prod.mk.injEq] at h
    obtain ⟨h1, h2, h3⟩ := h
    subst h1; subst h2; subst h3
    refine ⟨by simp, fun kv hm => hm, fun v hv => hv, fun v hv => hv,
      fun v hv => Or.inl hv, fun v hv => Or.inl hv, ?_⟩
    intro pos var hm
    cases hm
  | cons pv rest ih =>
    intro comps0 a0 a1 compsF s0F s1F h hnd
    obtain ⟨pos, var⟩ := pv
    simp only [List.map_cons] at hnd
    have hposnotrest : ¬ pos ∈ rest.map Prod.fst := by
      have h2 := (List.Nodup.of_append_right hnd)
      exact (List.nodup_cons.mp h2).1
    have hposfresh : ∀ kv ∈ comps0, kv.1 ≠ pos := by
      intro kv hm he
      rcases (List.nodup_append.mp hnd) with ⟨_, _, hdisj⟩
      exact hdisj (he ▸ List.mem_map_of_mem Prod.fst hm) (List.mem_cons_self _ _)
    unfold processVotes at h
    cases hbc : best_candidate comps0 pos var with
    | none =>
      rw [hbc] at h
      simp at h
    | some res =>
      obtain ⟨⟨al1, q, score1⟩, comps2⟩ := res
      rw [hbc] at h
      dsimp only at h
      obtain ⟨ps1, rest2, hs, htot, hq, hc2eq⟩ := best_candidate_some hbc
      have hc2 : comps2 = comps0 ++ [(pos, ps1)] := by
        rw [hc2eq]
        exact setAssoc_fresh hposfresh
      have hnd' : ((comps2.map Prod.fst) ++ rest.map Prod.fst).Nodup := by
        rw [hc2]
        simpa [List.append_assoc] using hnd
      have hmemc2 : (pos, ps1) ∈ comps2 := by
        rw [hc2]
        exact List.mem_append_right _ (List.mem_singleton.mpr rfl)
      have hkeys : ∀ {cF : List (Nat × Nat)},
          cF.map Prod.fst = comps2.map Prod.fst ++ rest.map Prod.fst →
          cF.map Prod.fst = comps0.map Prod.fst ++ pos :: rest.map Prod.fst := by
        intro cF hcF
        rw [hcF, hc2]
        simp [List.append_assoc]
      -- the two skip branches and the two emit branches share this bookkeeping
      by_cases hc1 : 100 * q < (P.gap_threshold : ℚ) ∧ ¬ phased pos = true
      · rw [if_pos hc1] at h
        obtain ⟨ih1, ih2, ih3, ih4, ih5, ih6, ih7⟩ := ih comps2 a0 a1 compsF s0F s1F h hnd'
        have hnemit : ¬ emitCond P fasta phased isSnv pos var := by
          rw [emitCond_iff hs]
          intro hcon
          rw [hq] at hc1
          exact hcon.1 hc1
        refine ⟨hkeys ih1, fun kv hm => ih2 kv (hc2 ▸ List.mem_append_left _ hm),
          ih3, ih4,
          fun v hv => (ih5 v hv).imp_right (fun hr => List.mem_cons_of_mem _ hr),
          fun v hv => (ih6 v hv).imp_right (fun hr => List.mem_cons_of_mem _ hr), ?_⟩
        intro pos' var' hm
        rcases List.mem_cons.mp hm with heq | hmem
        · injection heq with he1 he2
          subst he1; subst he2
          refine ⟨ps1, al1, score1, rest2, hs, ih2 _ hmemc2,
            fun hemit => absurd hemit hnemit, ?_⟩
          intro _
          constructor
          · intro hna hin
            rcases List.mem_map.mp hin with ⟨v, hv, hvp⟩
            rcases ih5 v hv with hva | hvr
            · exact hna (List.mem_map.mpr ⟨v, hva, hvp⟩)
            · exact hposnotrest (hvp ▸ hvr)
          · intro hna hin
            rcases List.mem_map.mp hin with ⟨v, hv, hvp⟩
            rcases ih6 v hv with hva | hvr
            · exact hna (List.mem_map.mpr ⟨v, hva, hvp⟩)
            · exact hposnotrest (hvp ▸ hvr)
        · exact ih7 pos' var' hmem
      · rw [if_neg hc1] at h
        by_cases hc2p : P.only_indels = true ∧ isSnv pos = true ∧ ¬ phased pos = true
        · rw [if_pos hc2p] at h
          obtain ⟨ih1, ih2, ih3, ih4, ih5, ih6, ih7⟩ := ih comps2 a0 a1 compsF s0F s1F h hnd'
          have hnemit : ¬ emitCond P fasta phased isSnv pos var := by
            rw [emitCond_iff hs]
            intro hcon
            exact hcon.2.1 hc2p
          refine ⟨hkeys ih1, fun kv hm => ih2 kv (hc2 ▸ List.mem_append_left _ hm),
            ih3, ih4,
            fun v hv => (ih5 v hv).imp_right (fun hr => List.mem_cons_of_mem _ hr),
            fun v hv => (ih6 v hv).imp_right (fun hr => List.mem_cons_of_mem _ hr), ?_⟩
          intro pos' var' hm
          rcases List.mem_cons.mp hm with heq | hmem
          · injection heq with he1 he2
            subst he1; subst he2
            refine ⟨ps1, al1, score1, rest2, hs, ih2 _ hmemc2,
              fun hemit => absurd hemit hnemit, ?_⟩
            intro _
            constructor
            · intro hna hin
              rcases List.mem_map.mp hin with ⟨v, hv, hvp⟩
              rcases ih5 v hv with hva | hvr
              · exact hna (List.mem_map.mpr ⟨v, hva, hvp⟩)
              · exact hposnotrest (hvp ▸ hvr)
            · intro hna hin
              rcases List.mem_map.mp hin with ⟨v, hv, hvp⟩
              rcases ih6 v hv with hva | hvr
              · exact hna (List.mem_map.mpr ⟨v, hva, hvp⟩)
              · exact hposnotrest (hvp ▸ hvr)
          · exact ih7 pos' var' hmem
        · rw [if_neg hc2p] at h
          by_cases hcp : 0 < P.cut_poly
          · rw [if_pos hcp] at h
            cases hl1 : length_of_polymer fasta ((pos : Int) + 1) 1 P.cut_poly with
            | none =>
              rw [hl1] at h
              cases hl2 : length_of_polymer fasta (pos : Int) (-1) P.cut_poly with
              | none => rw [hl2] at h; dsimp only at h; simp at h
              | some l2 => rw [hl2] at h; dsimp only at h; simp at h
            | some l1 =>
              rw [hl1] at h
              cases hl2 : length_of_polymer fasta (pos : Int) (-1) P.cut_poly with
              | none => rw [hl2] at h; dsimp only at h; simp at h
              | some l2 =>
                rw [hl2] at h
                dsimp only at h
                by_cases hmax : P.cut_poly ≤ max l1 l2
                · rw [if_pos hmax] at h
                  obtain ⟨ih1, ih2, ih3, ih4, ih5, ih6, ih7⟩ :=
                    ih comps2 a0 a1 compsF s0F s1F h hnd'
                  have hnemit : ¬ emitCond P fasta phased isSnv pos var := by
                    rw [emitCond_iff hs]
                    intro hcon
                    obtain ⟨l1', l2', he1, he2, hlt⟩ := hcon.2.2 hcp
                    rw [hl1] at he1
                    rw [hl2] at he2
                    injection he1 with he1
                    injection he2 with he2
                    subst he1; subst he2
                    omega
                  refine ⟨hkeys ih1, fun kv hm => ih2 kv (hc2 ▸ List.mem_append_left _ hm),
                    ih3, ih4,
                    fun v hv => (ih5 v hv).imp_right (fun hr => List.mem_cons_of_mem _ hr),
                    fun v hv => (ih6 v hv).imp_right (fun hr => List.mem_cons_of_mem _ hr), ?_⟩
                  intro pos' var' hm
                  rcases List.mem_cons.mp hm with heq | hmem
                  · injection heq with he1 he2
                    subst he1; subst he2
                    refine ⟨ps1, al1, score1, rest2, hs, ih2 _ hmemc2,
                      fun hemit => absurd hemit hnemit, ?_⟩
                    intro _
                    constructor
                    · intro hna hin
                      rcases List.mem_map.mp hin with ⟨v, hv, hvp⟩
                      rcases ih5 v hv with hva | hvr
                      · exact hna (List.mem_map.mpr ⟨v, hva, hvp⟩)
                      · exact hposnotrest (hvp ▸ hvr)
                    · intro hna hin
                      rcases List.mem_map.mp hin with ⟨v, hv, hvp⟩
                      rcases ih6 v hv with hva | hvr
                      · exact hna (List.mem_map.mpr ⟨v, hva, hvp⟩)
                      · exact hposnotrest (hvp ▸ hvr)
                  · exact ih7 pos' var' hmem
                · rw [if_neg hmax] at h
                  obtain ⟨ih1, ih2, ih3, ih4, ih5, ih6, ih7⟩ :=
                    ih comps2 (a0 ++ [⟨pos, al1, score1⟩]) (a1 ++ [⟨pos, al1 ^^^ 1, score1⟩])
                      compsF s0F s1F h hnd'
                  have hemitpf : emitCond P fasta phased isSnv pos var := by
                    rw [emitCond_iff hs]
                    refine ⟨?_, hc2p, fun _ => ⟨l1, l2, hl1, hl2, by omega⟩⟩
                    rw [hq] at hc1
                    exact hc1
                  refine ⟨hkeys ih1, fun kv hm => ih2 kv (hc2 ▸ List.mem_append_left _ hm),
                    fun v hv => ih3 v (List.mem_append_left _ hv),
                    fun v hv => ih4 v (List.mem_append_left _ hv), ?_, ?_, ?_⟩
                  · intro v hv
                    rcases ih5 v hv with hva | hvr
                    · rcases List.mem_append.mp hva with hva0 | hvnew
                      · exact Or.inl hva0
                      · right
                        rw [List.mem_singleton.mp hvnew]
                        exact List.mem_cons_self _ _
                    · exact Or.inr (List.mem_cons_of_mem _ hvr)
                  · intro v hv
                    rcases ih6 v hv with hva | hvr
                    · rcases List.mem_append.mp hva with hva0 | hvnew
                      · exact Or.inl hva0
                      · right
                        rw [List.mem_singleton.mp hvnew]
                        exact List.mem_cons_self _ _
                    · exact Or.inr (List.mem_cons_of_mem _ hvr)
                  · intro pos' var' hm
                    rcases List.mem_cons.mp hm with heq | hmem
                    · injection heq with he1 he2
                      subst he1; subst he2
                      refine ⟨ps1, al1, score1, rest2, hs, ih2 _ hmemc2,
                        fun _ => ⟨ih3 _ (List.mem_append_right _ (List.mem_singleton.mpr rfl)),
                          ih4 _ (List.mem_append_right _ (List.mem_singleton.mpr rfl))⟩,
                        fun hne => absurd hemitpf hne⟩
                    · obtain ⟨ps', al', s', r', hs', hmemF, hemit', hnemit'⟩ :=
                        ih7 pos' var' hmem
                      have hne : pos' ≠ pos := by
                        intro he
                        exact hposnotrest (he ▸ List.mem_map_of_mem Prod.fst hmem)
                      refine ⟨ps', al', s', r', hs', hmemF, hemit', ?_⟩
                      intro hne2
                      obtain ⟨hn1, hn2⟩ := hnemit' hne2
                      constructor
                      · intro hna
                        refine hn1 ?_
                        simp only [List.map_append, List.mem_append]
                        intro hcon
                        rcases hcon with hcon | hcon
                        · exact hna hcon
                        · simp at hcon
                          exact hne hcon
                      · intro hna
                        refine hn2 ?_
                        simp only [List.map_append, List.mem_append]
                        intro hcon
                        rcases hcon with hcon | hcon
                        · exact hna hcon
                        · simp at hcon
                          exact hne hcon
          · rw [if_neg hcp] at h
            obtain ⟨ih1, ih2, ih3, ih4, ih5, ih6, ih7⟩ :=
              ih comps2 (a0 ++ [⟨pos, al1, score1⟩]) (a1 ++ [⟨pos, al1 ^^^ 1, score1⟩])
                compsF s0F s1F h hnd'
            have hemitpf : emitCond P fasta phased isSnv pos var := by
              rw [emitCond_iff hs]
              refine ⟨?_, hc2p, fun hpos => absurd hpos hcp⟩
              rw [hq] at hc1
              exact hc1
            refine ⟨hkeys ih1, fun kv hm => ih2 kv (hc2 ▸ List.mem_append_left _ hm),
              fun v hv => ih3 v (List.mem_append_left _ hv),
              fun v hv => ih4 v (List.mem_append_left _ hv), ?_, ?_, ?_⟩
            · intro v hv
              rcases ih5 v hv with hva | hvr
              · rcases List.mem_append.mp hva with hva0 | hvnew
                · exact Or.inl hva0
                · right
                  rw [List.mem_singleton.mp hvnew]
                  exact List.mem_cons_self _ _
              · exact Or.inr (List.mem_cons_of_mem _ hvr)
            · intro v hv
              rcases ih6 v hv with hva | hvr
              · rcases List.mem_append.mp hva with hva0 | hvnew
                · exact Or.inl hva0
                · right
                  rw [List.mem_singleton.mp hvnew]
                  exact List.mem_cons_self _ _
              · exact Or.inr (List.mem_cons_of_mem _ hvr)
            · intro pos' var' hm
              rcases List.mem_cons.mp hm with heq | hmem
              · injection heq with he1 he2
                subst he1; subst he2
                refine ⟨ps1, al1, score1, rest2, hs, ih2 _ hmemc2,
                  fun _ => ⟨ih3 _ (List.mem_append_right _ (List.mem_singleton.mpr rfl)),
                    ih4 _ (List.mem_append_right _ (List.mem_singleton.mpr rfl))⟩,
                  fun hne => absurd hemitpf hne⟩
              · obtain ⟨ps', al', s', r', hs', hmemF, hemit', hnemit'⟩ :=
                  ih7 pos' var' hmem
                have hne : pos' ≠ pos := by
                  intro he
                  exact hposnotrest (he ▸ List.mem_map_of_mem Prod.fst hmem)
                refine ⟨ps', al', s', r', hs', hmemF, hemit', ?_⟩
                intro hne2
                obtain ⟨hn1, hn2⟩ := hnemit' hne2
                constructor
                · intro hna
                  refine hn1 ?_
                  simp only [List.map_append, List.mem_append]
                  intro hcon
                  rcases hcon with hcon | hcon
                  · exact hna hcon
                  · simp at hcon
                    exact hne hcon
                · intro hna
                  refine hn2 ?_
                  simp only [List.map_append, List.mem_append]
                  intro hcon
                  rcases hcon with hcon | hcon
                  · exact hna hcon
                  · simp at hcon
                    exact hne hcon

def witVotesC5 : List (Nat × List ((Nat × Nat) × Nat)) := [(4, [((9, 1), 3), ((9, 0), 1)])]

def witP5 : ExtParams := ⟨70, 0, false⟩

/-- C5 (amended): over one sample's vote table (distinct voted positions),
a successful `run_extend` pass assigns *every* voted position to a phase set
in the component map — `best_candidate` mutates `components[pos]` before the
skip rules run — not only the emitted ones; the phase set assigned is the
top-scoring PS* of that position's votes. A position is emitted exactly when
it passes the gap-threshold, only-indels and homopolymer skip rules, and
then it appears in super-read 0 with the winning allele a* and in
super-read 1 with its complement a* XOR 1, both with quality s*, the winning
accumulated score; positions failing a skip rule appear in neither
super-read, and every super-read entry stems from a voted position. -/
theorem extend_votes_assignment_and_emission
    (P : ExtParams) (fasta : List Char) (phased isSnv : Nat → Bool)
    (votes : List (Nat × List ((Nat × Nat) × Nat)))
    (comps : List (Nat × Nat)) (s0 s1 : List SRV)
    (hnd : (votes.map Prod.fst).Nodup)
    (h : runExtendSample P fasta phased isSnv votes = some (comps, s0, s1)) :
    comps.map Prod.fst = votes.map Prod.fst ∧
    (∀ v ∈ s0, v.position ∈ votes.map Prod.fst) ∧
    (∀ v ∈ s1, v.position ∈ votes.map Prod.fst) ∧
    (∀ pos var, (pos, var) ∈ votes →
      ∃ ps al s rest2, sortVotesDesc var = ((ps, al), s) :: rest2 ∧
        ((ps, al), s) ∈ var ∧ (∀ e ∈ var, e.2 ≤ s) ∧
        comps.lookup pos = some ps ∧
        (emitCond P fasta phased isSnv pos var →
          (⟨pos, al, s⟩ : SRV) ∈ s0 ∧ (⟨pos, al ^^^ 1, s⟩ : SRV) ∈ s1) ∧
        (¬ emitCond P fasta phased isSnv pos var →
          ¬ pos ∈ s0.map SRV.position ∧ ¬ pos ∈ s1.map SRV.position)) := by
  unfold runExtendSample at h
  cases hp : processVotes P fasta phased isSnv votes [] [] [] with
  | none =>
    rw [hp] at h
    simp at h
  | some t =>
    obtain ⟨c, t0, t1⟩ := t
    rw [hp] at h
    dsimp only at h
    simp only [Option.some.injEq, Prod.mk.injEq] at h
    obtain ⟨hc, h0, h1⟩ := h
    subst hc; subst h0; subst h1
    obtain ⟨ih1, _, _, _, ih5, ih6, ih7⟩ :=
      processVotes_spec P fasta phased isSnv votes [] [] [] c t0 t1 hp (by simpa using hnd)
    have hckeys : c.map Prod.fst = votes.map Prod.fst := by simpa using ih1
    refine ⟨hckeys, ?_, ?_, ?_⟩
    · intro v hv
      rcases ih5 v ((sortSRV_perm t0).subset hv) with hva | hvr
      · cases hva
      · exact hvr
    · intro v hv
      rcases ih6 v ((sortSRV_perm t1).subset hv) with hva | hvr
      · cases hva
      · exact hvr
    · intro pos var hm
      obtain ⟨ps, al, s, rest2, hs, hmemc, hemit, hnemit⟩ := ih7 pos var hm
      obtain ⟨hhead, hmax⟩ := sortVotesDesc_head_max hs
      refine ⟨ps, al, s, rest2, hs, hhead, hmax,
        lookup_of_mem_nodup (hckeys ▸ hnd) hmemc, ?_, ?_⟩
      · intro he
        obtain ⟨hin0, hin1⟩ := hemit he
        exact ⟨(sortSRV_perm t0).mem_iff.mpr hin0, (sortSRV_perm t1).mem_iff.mpr hin1⟩
      · intro hne
        obtain ⟨hn0, hn1⟩ := hnemit hne
        constructor
        · intro hin
          exact hn0 (by simp) (((sortSRV_perm t0).map SRV.position).mem_iff.mp hin)
        · intro hin
          exact hn1 (by simp) (((sortSRV_perm t1).map SRV.position).mem_iff.mp hin)

/-- Witness: one voted position (4), winning vote ((9,1), score 3) out of
total 4, position already phased, so all skip rules pass and the position
is emitted on both haplotypes with complementary alleles. -/
theorem extend_votes_assignment_and_emission_witness :
    (witVotesC5.map Prod.fst).Nodup ∧
    runExtendSample witP5 [] (fun _ => true) (fun _ => true) witVotesC5 =
      some ([(4, 9)], [⟨4, 1, 3⟩], [⟨4, 0, 3⟩]) ∧
    ([((4 : Nat), (9 : Nat))].map Prod.fst = witVotesC5.map Prod.fst ∧
     (∀ v ∈ [(⟨4, 1, 3⟩ : SRV)], v.position ∈ witVotesC5.map Prod.fst) ∧
     (∀ v ∈ [(⟨4, 0, 3⟩ : SRV)], v.position ∈ witVotesC5.map Prod.fst) ∧
     (∀ pos var, (pos, var) ∈ witVotesC5 →
       ∃ ps al s rest2, sortVotesDesc var = ((ps, al), s) :: rest2 ∧
         ((ps, al), s) ∈ var ∧ (∀ e ∈ var, e.2 ≤ s) ∧
         List.lookup pos [((4 : Nat), (9 : Nat))] = some ps ∧
         (emitCond witP5 [] (fun _ => true) (fun _ => true) pos var →
           (⟨pos, al, s⟩ : SRV) ∈ [(⟨4, 1, 3⟩ : SRV)] ∧
           (⟨pos, al ^^^ 1, s⟩ : SRV) ∈ [(⟨4, 0, 3⟩ : SRV)]) ∧
         (¬ emitCond witP5 [] (fun _ => true) (fun _ => true) pos var →
           ¬ pos ∈ ([(⟨4, 1, 3⟩ : SRV)].map SRV.position) ∧
           ¬ pos ∈ ([(⟨4, 0, 3⟩ : SRV)].map SRV.position)))) :=
  ⟨by decide, by decide,
    extend_votes_assignment_and_emission witP5 [] (fun _ => true) (fun _ => true)
      witVotesC5 [(4, 9)] [⟨4, 1, 3⟩] [⟨4, 0, 3⟩] (by decide) (by decide)⟩

end
